import Mathlib

/-!
Verification development for the PackedArray library: a fixed-width bit-packing
container storing items of `bitsPerItem` bits (1..32) contiguously in a buffer
of 32-bit words.

The buffer is modelled as a total function `Nat → Nat` from word index to word
value (each word a `uint32`, i.e. `< 2^32`); machine arithmetic is modelled on
`Nat` with explicit `% 2^32` (resp. `% 2^64`) where the C code truncates.
The input stream of `pack` is modelled as a total function `Nat → Nat`, and the
output array written by `unpack` as the list of values written, in order.
-/

/-- Truncating 32-bit left shift, `(uint32_t)(x << s)`. -/
def shl32 (x s : Nat) : Nat := (x <<< s) % 2^32

/-- 32-bit bitwise complement `~x` of a `uint32` operand. -/
def compl32 (x : Nat) : Nat := (2^32 - 1) ^^^ (x % 2^32)

/-- The item mask `(uint32_t)(1ULL << B) - 1` (`PACKEDARRAY_IMPL_MASK` and the
`mask` local of the generic engine): the shift is performed on a 64-bit wide
intermediate, cast to `uint32`, and then 1 is subtracted with 32-bit wrap. -/
def mask32 (B : Nat) : Nat := ((1 <<< B) % 2^64 % 2^32 + (2^32 - 1)) % 2^32

/-- Pointwise update of a buffer: the store `buf[w] = v`. -/
def bufWrite (buf : Nat → Nat) (w v : Nat) : Nat → Nat :=
  fun x => if x = w then v else buf x

/-- The `PackedArray` handle: bit width and item count fixed at creation, plus
the mutable word buffer. -/
structure PackedArray where
  bitsPerItem : Nat
  count : Nat
  buffer : Nat → Nat

/-- The index of the single zero-initialising store done by `PackedArray_create`:
`((uint64_t)bitsPerItem * count + 31) / 32 - 1`, computed in `uint64` arithmetic
(so the subtraction wraps modulo `2^64` when the quotient is 0). -/
def PackedArray_createStoreIndex (bitsPerItem count : Nat) : Nat :=
  ((bitsPerItem * count + 31) / 32 + (2^64 - 1)) % 2^64

/-- Number of buffer words allocated by `PackedArray_create`:
`((uint64_t)bitsPerItem * count + 31) / 32`. -/
def PackedArray_createBufferWords (bitsPerItem count : Nat) : Nat :=
  (bitsPerItem * count + 31) / 32

/-- `PackedArray_create`: records the parameters and zeroes the last buffer word.
`mem` models the uninitialised contents of the freshly `malloc`ed buffer. -/
def PackedArray_create (bitsPerItem count : Nat) (mem : Nat → Nat) : PackedArray :=
  { bitsPerItem := bitsPerItem, count := count,
    buffer := bufWrite mem (PackedArray_createStoreIndex bitsPerItem count) 0 }

/-! ### Generic (reference) engine

`PackedArray_pack` of `PackedArray.c` / `PackedArray_pack_reference` of the
self-test: a width-agnostic cursor loop. The loop state is the output word
index `w`, the `startBit`/`bitsAvailable` cursor, and the accumulator
`packed`. -/

/-- Loop state of the generic cursor-loop engine. -/
structure PackCursor where
  buf : Nat → Nat
  w : Nat
  startBit : Nat
  bitsAvailable : Nat
  packed : Nat

/-- One iteration of the `while (count--)` loop of the generic pack engine. -/
def packStep (B : Nat) (value : Nat) (s : PackCursor) : PackCursor :=
  if B ≤ s.bitsAvailable then
    { s with
      packed := (s.packed &&& compl32 (shl32 (mask32 B) s.startBit)) ||| shl32 value s.startBit,
      startBit := s.startBit + B,
      bitsAvailable := s.bitsAvailable - B }
  else if s.bitsAvailable = 0 then
    let buf1 := bufWrite s.buf s.w s.packed
    let w1 := s.w + 1
    let p1 := (buf1 w1 &&& compl32 (mask32 B)) ||| value
    { buf := buf1, w := w1, startBit := 0 + B, bitsAvailable := 32 - B, packed := p1 }
  else
    let low := shl32 value s.startBit
    let high := value >>> s.bitsAvailable
    let buf1 := bufWrite s.buf s.w ((s.packed &&& compl32 (shl32 (mask32 B) s.startBit)) ||| low)
    let w1 := s.w + 1
    let p1 := (buf1 w1 &&& compl32 (mask32 B >>> (32 - s.startBit))) ||| high
    { buf := buf1, w := w1, startBit := (s.startBit + B) % 32,
      bitsAvailable := 32 - (s.startBit + B) % 32, packed := p1 }

/-- The `while (count--)` loop of the generic pack engine; `j` is the index of
the next input item, `r` the number of items left. -/
def packLoop (B : Nat) (vin : Nat → Nat) : Nat → Nat → PackCursor → PackCursor
  | _, 0, s => s
  | j, r + 1, s => packLoop B vin (j + 1) r (packStep B (vin j) s)

/-- The generic pack engine acting on a raw buffer (body of `PackedArray_pack`
in `PackedArray.c`, identical to `PackedArray_pack_reference`): cursor
initialisation, item loop, final `*out = packed` flush. -/
def packBuffer (B : Nat) (buf : Nat → Nat) (offset : Nat) (vin : Nat → Nat) (count : Nat) :
    Nat → Nat :=
  let s0 : PackCursor :=
    { buf := buf, w := offset * B / 32, startBit := offset * B % 32,
      bitsAvailable := 32 - offset * B % 32, packed := buf (offset * B / 32) }
  let s := packLoop B vin 0 count s0
  bufWrite s.buf s.w s.packed

/-- `PackedArray_pack_reference` on the handle. -/
def PackedArray_pack_reference (a : PackedArray) (offset : Nat) (vin : Nat → Nat)
    (count : Nat) : PackedArray :=
  { a with buffer := packBuffer a.bitsPerItem a.buffer offset vin count }

/-- The `while (count--)` loop of the generic unpack engine, returning the list
of values written to `out`. -/
def unpackLoop (B : Nat) (buf : Nat → Nat) : Nat → Nat → Nat → Nat → Nat → List Nat
  | 0, _, _, _, _ => []
  | r + 1, w, startBit, bitsAvailable, packed =>
    if B ≤ bitsAvailable then
      ((packed >>> startBit) &&& mask32 B) ::
        unpackLoop B buf r w (startBit + B) (bitsAvailable - B) packed
    else if bitsAvailable = 0 then
      (buf (w + 1) &&& mask32 B) ::
        unpackLoop B buf r (w + 1) B (32 - B) (buf (w + 1))
    else
      let low := packed >>> startBit
      let high := shl32 (buf (w + 1)) (32 - startBit)
      (low ^^^ ((low ^^^ high) &&& shl32 (mask32 B >>> bitsAvailable) bitsAvailable)) ::
        unpackLoop B buf r (w + 1) ((startBit + B) % 32) (32 - (startBit + B) % 32)
          (buf (w + 1))

/-- The generic unpack engine on a raw buffer (body of `PackedArray_unpack` in
`PackedArray.c`, identical to `PackedArray_unpack_reference`). -/
def unpackList (B : Nat) (buf : Nat → Nat) (offset count : Nat) : List Nat :=
  unpackLoop B buf count (offset * B / 32) (offset * B % 32) (32 - offset * B % 32)
    (buf (offset * B / 32))

/-- `PackedArray_unpack_reference` on the handle. -/
def PackedArray_unpack_reference (a : PackedArray) (offset count : Nat) : List Nat :=
  unpackList a.bitsPerItem a.buffer offset count

/-! ### Specialized per-width engine

`__PackedArray_pack_{B}` / `__PackedArray_unpack_{B}`: the macro-generated
resumable state machines. Case `i` (0..31) of the switch has the compile-time
constants `START_BIT = (i*B) % 32` and `BITS_AVAILABLE = 32 - START_BIT`.
The `switch`-into-`do/while` control flow is modelled as: a run of the cases
`off..31`, then whole 32-case cycles, then a run with the per-case
`in == end` break check of the epilogue. -/

/-- State of the specialized pack machine: buffer, output word index `w`,
input index `j` (the `in` pointer), accumulator `packed`. -/
structure PackSM where
  buf : Nat → Nat
  w : Nat
  j : Nat
  packed : Nat

/-- Body of case `i` of `PACKEDARRAY_IMPL_PACK_CASES`. -/
def packCase (B : Nat) (vin : Nat → Nat) (i : Nat) (s : PackSM) : PackSM :=
  let startBit := i * B % 32
  let bitsAvailable := 32 - startBit
  if B ≤ bitsAvailable then
    let p1 := s.packed ||| shl32 (vin s.j) startBit
    if B = bitsAvailable then
      { buf := bufWrite s.buf s.w p1, w := s.w + 1, j := s.j + 1, packed := 0 }
    else
      { s with j := s.j + 1, packed := p1 }
  else
    let p1 := s.packed ||| shl32 (vin s.j) startBit
    { buf := bufWrite s.buf s.w p1, w := s.w + 1, j := s.j + 1,
      packed := vin s.j >>> bitsAvailable }

/-- A fall-through run of pack cases (no break check: the bulk path). -/
def packCases (B : Nat) (vin : Nat → Nat) (is : List Nat) (s : PackSM) : PackSM :=
  is.foldl (fun s i => packCase B vin i s) s

/-- The remaining `do { cases 0..31 } while (--n > 0)` iterations. -/
def packCycles (B : Nat) (vin : Nat → Nat) : Nat → PackSM → PackSM
  | 0, s => s
  | r + 1, s => packCycles B vin r (packCases B vin (List.range' 0 32) s)

/-- A run of pack cases with the epilogue's `if (in == end) break;` check,
placed after each case body; `stop` is the input index of `end`. -/
def packCasesBreak (B : Nat) (vin : Nat → Nat) (stop : Nat) : List Nat → PackSM → PackSM
  | [], s => s
  | i :: is, s =>
    let s1 := packCase B vin i s
    if s1.j = stop then s1 else packCasesBreak B vin stop is s1

/-- The final partial-word merge of the specialized pack: executed when the
written range does not end on a word boundary, it re-merges the existing
buffer bits above the final bit position and flushes `packed`. -/
def packFlushTail (B count startBit : Nat) (s : PackSM) : Nat → Nat :=
  if (count * B + startBit) % 32 ≠ 0 then
    bufWrite s.buf s.w
      (s.packed ||| (s.buf s.w &&& compl32 (mask32 ((count * B + startBit - 1) % 32 + 1))))
  else s.buf

/-- The specialized pack state machine `__PackedArray_pack_{B}(out, offset, in, count)`,
with the bit width `B` as an explicit parameter. -/
def __PackedArray_pack (B : Nat) (out : Nat → Nat) (offset : Nat) (vin : Nat → Nat)
    (count : Nat) : Nat → Nat :=
  let w0 := offset * B / 32
  let startBit := offset * B % 32
  let packed0 := out w0 &&& (2 ^ startBit - 1)
  let off := offset % 32
  let s0 : PackSM := { buf := out, w := w0, j := 0, packed := packed0 }
  if 32 - off ≤ count then
    let n := (count + off) % 2^32 / 32
    let count1 := count - (32 * n - off)
    let s1 := packCases B vin (List.range' off (32 - off)) s0
    let s2 := packCycles B vin (n - 1) s1
    if count1 = 0 then s2.buf
    else
      let s3 := packCasesBreak B vin (s2.j + count1) (List.range' 0 32) s2
      packFlushTail B count1 0 s3
  else
    let s3 := packCasesBreak B vin (s0.j + count) (List.range' off (32 - off)) s0
    packFlushTail B count startBit s3

/-- State of the specialized unpack machine: input word index `w` (the `in`
pointer), the loaded word `packed`, and the values written to `out` so far. -/
structure UnpackSM where
  w : Nat
  packed : Nat
  out : List Nat

/-- Body of case `i` of `PACKEDARRAY_IMPL_UNPACK_CASES` (bulk variant: the
conditional `packed = *++in;` advance is only generated for `i < 31` with
`B == BITS_AVAILABLE`). -/
def unpackCase (B : Nat) (buf : Nat → Nat) (i : Nat) (s : UnpackSM) : UnpackSM :=
  let startBit := i * B % 32
  let bitsAvailable := 32 - startBit
  if B ≤ bitsAvailable then
    let s1 : UnpackSM := { s with out := s.out ++ [(s.packed >>> startBit) &&& mask32 B] }
    if i < 31 ∧ B = bitsAvailable then
      { s1 with w := s1.w + 1, packed := buf (s1.w + 1) }
    else s1
  else
    let low := s.packed >>> startBit
    let w1 := s.w + 1
    let p1 := buf w1
    let high := shl32 p1 bitsAvailable
    { w := w1, packed := p1, out := s.out ++ [(low ||| high) &&& mask32 B] }

/-- A fall-through run of unpack cases (no break check: the bulk path). -/
def unpackCases (B : Nat) (buf : Nat → Nat) (is : List Nat) (s : UnpackSM) : UnpackSM :=
  is.foldl (fun s i => unpackCase B buf i s) s

/-- The remaining `do { packed = *++in; cases 0..31 } while (--n > 0)` iterations. -/
def unpackCycles (B : Nat) (buf : Nat → Nat) : Nat → UnpackSM → UnpackSM
  | 0, s => s
  | r + 1, s =>
    unpackCycles B buf r
      (unpackCases B buf (List.range' 0 32) { s with w := s.w + 1, packed := buf (s.w + 1) })

/-- A run of unpack cases with the epilogue's `if (out == end) break;` check,
placed after the value is written and before the conditional word advance;
`stop` is the length of `out` at which `end` is reached. -/
def unpackCasesBreak (B : Nat) (buf : Nat → Nat) (stop : Nat) : List Nat → UnpackSM → UnpackSM
  | [], s => s
  | i :: is, s =>
    let startBit := i * B % 32
    let bitsAvailable := 32 - startBit
    if B ≤ bitsAvailable then
      let s1 : UnpackSM := { s with out := s.out ++ [(s.packed >>> startBit) &&& mask32 B] }
      if s1.out.length = stop then s1
      else
        let s2 := if i < 31 ∧ B = bitsAvailable then
          { s1 with w := s1.w + 1, packed := buf (s1.w + 1) } else s1
        unpackCasesBreak B buf stop is s2
    else
      let low := s.packed >>> startBit
      let w1 := s.w + 1
      let p1 := buf w1
      let high := shl32 p1 bitsAvailable
      let s1 : UnpackSM := { w := w1, packed := p1, out := s.out ++ [(low ||| high) &&& mask32 B] }
      if s1.out.length = stop then s1 else unpackCasesBreak B buf stop is s1

/-- The specialized unpack state machine `__PackedArray_unpack_{B}(in, offset, out, count)`. -/
def __PackedArray_unpack (B : Nat) (buf : Nat → Nat) (offset : Nat) (count : Nat) : List Nat :=
  let w0 := offset * B / 32
  let off := offset % 32
  let s0 : UnpackSM := { w := w0, packed := buf w0, out := [] }
  if 32 - off ≤ count then
    let n := (count + off) % 2^32 / 32
    let count1 := count - (32 * n - off)
    let s1 := unpackCases B buf (List.range' off (32 - off)) s0
    let s2 := unpackCycles B buf (n - 1) s1
    if count1 = 0 then s2.out
    else
      let s3 : UnpackSM := { s2 with w := s2.w + 1, packed := buf (s2.w + 1) }
      (unpackCasesBreak B buf (s3.out.length + count1) (List.range' 0 32) s3).out
  else
    (unpackCasesBreak B buf count (List.range' off (32 - off)) s0).out

/-- `PackedArray_pack`: dispatch on `bitsPerItem` (switch cases 1..32; no case
matches outside that range and the call does nothing). -/
def PackedArray_pack (a : PackedArray) (offset : Nat) (vin : Nat → Nat) (count : Nat) :
    PackedArray :=
  if 1 ≤ a.bitsPerItem ∧ a.bitsPerItem ≤ 32 then
    { a with buffer := __PackedArray_pack a.bitsPerItem a.buffer offset vin count }
  else a

/-- `PackedArray_unpack`: dispatch on `bitsPerItem`. -/
def PackedArray_unpack (a : PackedArray) (offset count : Nat) : List Nat :=
  if 1 ≤ a.bitsPerItem ∧ a.bitsPerItem ≤ 32 then
    __PackedArray_unpack a.bitsPerItem a.buffer offset count
  else []

/-- `PackedArray_set`: single-item write, merging into one word or two. -/
def PackedArray_set (a : PackedArray) (offset v : Nat) : PackedArray :=
  let B := a.bitsPerItem
  let w := offset * B / 32
  let startBit := offset * B % 32
  let bitsAvailable := 32 - startBit
  let mask := mask32 B
  if B ≤ bitsAvailable then
    let b1 := bufWrite a.buffer w ((a.buffer w &&& compl32 (shl32 mask startBit)) ||| shl32 v startBit)
    { a with buffer := b1 }
  else
    let low := shl32 v startBit
    let high := v >>> bitsAvailable
    let b1 := bufWrite a.buffer w ((a.buffer w &&& compl32 (shl32 mask startBit)) ||| low)
    let b2 := bufWrite b1 (w + 1) ((b1 (w + 1) &&& compl32 (mask >>> (32 - startBit))) ||| high)
    { a with buffer := b2 }

/-- `PackedArray_get`: single-item read from one word or two. -/
def PackedArray_get (a : PackedArray) (offset : Nat) : Nat :=
  let B := a.bitsPerItem
  let w := offset * B / 32
  let startBit := offset * B % 32
  let bitsAvailable := 32 - startBit
  let mask := mask32 B
  if B ≤ bitsAvailable then
    (a.buffer w >>> startBit) &&& mask
  else
    let low := a.buffer w >>> startBit
    let high := shl32 (a.buffer (w + 1)) (32 - startBit)
    low ^^^ ((low ^^^ high) &&& shl32 (mask >>> bitsAvailable) bitsAvailable)

/-- `PackedArray_bufferSize`: `((uint64_t)bitsPerItem * count + 31) / 32`. -/
def PackedArray_bufferSize (a : PackedArray) : Nat :=
  (a.bitsPerItem * a.count + 31) / 32

/-- Position of the highest set bit of a `uint32` (0 for `v = 0`); shallow
embedding of the `31 - __builtin_clz(v)` computation used by
`__PackedArray_highestBitSet` for nonzero `v`. -/
def hb32 (v : Nat) : Nat :=
  (List.range 32).foldl (fun acc i => if v.testBit i then i else acc) 0

/-- `__PackedArray_highestBitSet`: `v == 0 ? -1 : 31 - __builtin_clz(v)`. -/
def __PackedArray_highestBitSet (v : Nat) : Int :=
  if v = 0 then -1 else (hb32 v : Int)

/-- `PackedArray_computeBitsPerItem`: scans for the maximum and returns
`highestBitSet(max) + 1`, with 0 mapped to 1. -/
def PackedArray_computeBitsPerItem (l : List Nat) : Nat :=
  let in_max := l.foldl (fun m v => if v > m then v else m) 0
  let bitsPerItem := (__PackedArray_highestBitSet in_max + 1).toNat
  if bitsPerItem = 0 then 1 else bitsPerItem

/-! ### Bit-level specification -/

/-- Bit `p % 32` of word `p / 32`: the buffer viewed as a little-endian bit
stream (word `w`'s bit `b` is global bit `32*w + b`). -/
def bufBit (buf : Nat → Nat) (p : Nat) : Bool := (buf (p / 32)).testBit (p % 32)

/-- The intended contents, as a bit stream, of a buffer after packing `n` items
from `vin` at item offset `offset` with width `B`: bits inside the written
window come from the values, all others from the original buffer. -/
def packBitSpec (B offset n : Nat) (vin : Nat → Nat) (buf : Nat → Nat) (p : Nat) : Bool :=
  if offset * B ≤ p ∧ p < offset * B + n * B then
    (vin ((p - offset * B) / B)).testBit ((p - offset * B) % B)
  else bufBit buf p

/-- The `B`-bit item starting at global bit `p` of the buffer, assembled from
the word containing `p` and its successor. -/
def specItem (B : Nat) (buf : Nat → Nat) (p : Nat) : Nat :=
  ((buf (p / 32) >>> (p % 32)) ||| shl32 (buf (p / 32 + 1)) (32 - p % 32)) &&& (2 ^ B - 1)

/-- Bitwise characterization of one buffer word after a pack of `n` items from
`vin` at item offset `offset`: bit `i` of word `w'` matches `packBitSpec` at
global bit `32*w' + i`, and all bits from 32 up are clear. -/
def packWordSpec (B offset n : Nat) (vin buf : Nat → Nat) (w' x : Nat) : Prop :=
  ∀ i, x.testBit i = (decide (i < 32) && packBitSpec B offset n vin buf (32 * w' + i))

/-- Invariant of the generic pack cursor loop after `j` items have been merged:
the cursor sits `j*B` bits after the start position, flushed words already hold
their final contents, and the accumulator holds the final bits below the cursor
and the original bits above it. -/
structure PackCursorInv (B offset n : Nat) (vin buf : Nat → Nat) (j : Nat)
    (s : PackCursor) : Prop where
  heq : 32 * s.w + s.startBit = offset * B + j * B
  hsb : s.startBit ≤ 32
  havail : s.bitsAvailable = 32 - s.startBit
  hw0 : offset * B / 32 ≤ s.w
  hlo : ∀ w', w' < offset * B / 32 → s.buf w' = buf w'
  hhi : ∀ w', s.w ≤ w' → s.buf w' = buf w'
  hmid : ∀ w', offset * B / 32 ≤ w' → w' < s.w → packWordSpec B offset n vin buf w' (s.buf w')
  hpacked : ∀ i, s.packed.testBit i =
    (decide (i < 32) &&
      (if 32 * s.w + i < offset * B + j * B then packBitSpec B offset n vin buf (32 * s.w + i)
       else (buf s.w).testBit i))

/-- Invariant of the specialized pack machine on entry to case `i` (0..32,
where 32 stands for the state after case 31) with `j` items consumed: the
accumulator holds exactly the final bits below `START_BIT = (i*B) % 32` of the
current word and nothing else. -/
structure PackSMInv (B offset n : Nat) (vin buf : Nat → Nat) (i j : Nat)
    (s : PackSM) : Prop where
  hj : s.j = j
  heq : 32 * s.w + i * B % 32 = offset * B + j * B
  hw0 : offset * B / 32 ≤ s.w
  hlo : ∀ w', w' < offset * B / 32 → s.buf w' = buf w'
  hhi : ∀ w', s.w ≤ w' → s.buf w' = buf w'
  hmid : ∀ w', offset * B / 32 ≤ w' → w' < s.w → packWordSpec B offset n vin buf w' (s.buf w')
  hpacked : ∀ t, s.packed.testBit t =
    (decide (t < i * B % 32) && packBitSpec B offset n vin buf (32 * s.w + t))

/-! ### Basic bit-level lemmas -/

theorem shl32_lt (x s : Nat) : shl32 x s < 2 ^ 32 :=
  Nat.mod_lt _ (by decide)

theorem compl32_lt (x : Nat) : compl32 x < 2 ^ 32 :=
  Nat.xor_lt_two_pow (by decide) (Nat.mod_lt _ (by decide))

theorem mask32_lt (B : Nat) : mask32 B < 2 ^ 32 :=
  Nat.mod_lt _ (by decide)

theorem mask32_eq {B : Nat} (h1 : 1 ≤ B) (h2 : B ≤ 32) : mask32 B = 2 ^ B - 1 := by
  interval_cases B <;> decide

theorem testBit_ge_32 {x : Nat} (hx : x < 2 ^ 32) {i : Nat} (hi : 32 ≤ i) :
    x.testBit i = false :=
  Nat.testBit_lt_two_pow (lt_of_lt_of_le hx (Nat.pow_le_pow_right (by decide) hi))

theorem testBit_shl32 (x s i : Nat) (hi : i < 32) :
    (shl32 x s).testBit i = (decide (s ≤ i) && x.testBit (i - s)) := by
  rw [shl32, Nat.testBit_mod_two_pow, Nat.testBit_shiftLeft]
  simp [hi, ge_iff_le]

theorem testBit_compl32 (x i : Nat) (hi : i < 32) :
    (compl32 x).testBit i = !x.testBit i := by
  rw [compl32, Nat.testBit_xor, Nat.testBit_two_pow_sub_one, Nat.testBit_mod_two_pow]
  simp [hi]

theorem bufWrite_same (buf : Nat → Nat) (w v : Nat) : bufWrite buf w v w = v := by
  simp [bufWrite]

theorem bufWrite_other (buf : Nat → Nat) (w v x : Nat) (h : x ≠ w) :
    bufWrite buf w v x = buf x := by
  simp [bufWrite, h]

/-- The all-zero buffer, used to instantiate theorems at concrete inputs. -/
def buf0 : Nat → Nat := fun _ => 0

/-- C8: for every B in 1..32 the item mask computed as
`(uint32_t)(1ULL << B) - 1` equals `2^B - 1` as a 32-bit word; in particular
for `B = 32` it equals the all-ones word `0xFFFFFFFF` rather than overflowing. -/
theorem mask32_is_low_bits (B : Nat) (h1 : 1 ≤ B) (h2 : B ≤ 32) :
    mask32 B = 2 ^ B - 1 ∧ mask32 32 = 4294967295 :=
  ⟨mask32_eq h1 h2, by decide⟩

theorem mask32_is_low_bits_witness : mask32 32 = 2 ^ 32 - 1 ∧ mask32 32 = 4294967295 :=
  mask32_is_low_bits 32 (by decide) (by decide)

/-- C7: for every bitsPerItem in 1..32 and every count, `bufferSize` of an
array created with those parameters equals `ceil(bitsPerItem * count / 32)`
(stated both as the rounding-up division and by the characteristic bounds of
the ceiling); in particular bitsPerItem = 9 and count = 10 give bufferSize 3. -/
theorem bufferSize_is_ceil (B count : Nat) (mem : Nat → Nat) (h1 : 1 ≤ B) (h2 : B ≤ 32) :
    PackedArray_bufferSize (PackedArray_create B count mem) = (B * count + 31) / 32 ∧
    B * count ≤ 32 * PackedArray_bufferSize (PackedArray_create B count mem) ∧
    32 * PackedArray_bufferSize (PackedArray_create B count mem) < B * count + 32 ∧
    PackedArray_bufferSize (PackedArray_create 9 10 mem) = 3 := by
  have e : PackedArray_bufferSize (PackedArray_create B count mem) = (B * count + 31) / 32 := rfl
  have e9 : PackedArray_bufferSize (PackedArray_create 9 10 mem) = (9 * 10 + 31) / 32 := rfl
  refine ⟨e, ?_, ?_, by rw [e9]⟩
  · rw [e]; omega
  · rw [e]; omega

theorem bufferSize_is_ceil_witness :
    PackedArray_bufferSize (PackedArray_create 9 10 buf0) = (9 * 10 + 31) / 32 ∧
    9 * 10 ≤ 32 * PackedArray_bufferSize (PackedArray_create 9 10 buf0) ∧
    32 * PackedArray_bufferSize (PackedArray_create 9 10 buf0) < 9 * 10 + 32 ∧
    PackedArray_bufferSize (PackedArray_create 9 10 buf0) = 3 :=
  bufferSize_is_ceil 9 10 buf0 (by decide) (by decide)

/-- C10 counterexample: with count = 0 the zero-initialising store of
`PackedArray_create` underflows: the uint64 index wraps to `2^64 - 1`, far
outside the zero-word buffer. -/
theorem createStoreIndex_underflows_at_zero :
    ¬ (PackedArray_createStoreIndex 1 0 < PackedArray_createBufferWords 1 0) ∧
    PackedArray_createStoreIndex 1 0 = 2 ^ 64 - 1 := by
  constructor <;> decide

/-- C10 amended: for every bitsPerItem in 1..32 and every count in 1..2^32-1,
the store index `ceil(bitsPerItem*count/32) - 1` does not underflow and lies
within the allocated buffer; for count = 0 it wraps around (see the
counterexample). -/
theorem createStoreIndex_in_range (B count : Nat) (h1 : 1 ≤ B) (h2 : B ≤ 32)
    (hc1 : 1 ≤ count) (hc2 : count < 2 ^ 32) :
    PackedArray_createStoreIndex B count = PackedArray_createBufferWords B count - 1 ∧
    PackedArray_createStoreIndex B count < PackedArray_createBufferWords B count := by
  have hm : B * count ≤ 32 * count := Nat.mul_le_mul_right count h2
  have h1' : 1 ≤ B * count := Nat.mul_le_mul h1 hc1
  unfold PackedArray_createStoreIndex PackedArray_createBufferWords
  omega

theorem createStoreIndex_in_range_witness :
    PackedArray_createStoreIndex 9 10 = PackedArray_createBufferWords 9 10 - 1 ∧
    PackedArray_createStoreIndex 9 10 < PackedArray_createBufferWords 9 10 :=
  createStoreIndex_in_range 9 10 (by decide) (by decide) (by decide) (by decide)

/-- The scanning fold of `hb32` keeps the index of the highest set bit seen. -/
theorem hb32_core (v m : Nat) :
    ((List.range m).foldl (fun acc i => if v.testBit i then i else acc) 0 = 0 ∨
      v.testBit ((List.range m).foldl (fun acc i => if v.testBit i then i else acc) 0) = true) ∧
    (∀ i, i < m → v.testBit i = true →
      i ≤ (List.range m).foldl (fun acc i => if v.testBit i then i else acc) 0) := by
  induction m with
  | zero => exact ⟨Or.inl rfl, fun i hi _ => absurd hi (by omega)⟩
  | succ m ih =>
    rw [List.range_succ, List.foldl_append, List.foldl_cons, List.foldl_nil]
    by_cases hm : v.testBit m
    · refine ⟨Or.inr (by simp [hm]), fun i hi hbit => ?_⟩
      simp only [hm, if_true]
      omega
    · simp only [hm, Bool.false_eq_true, if_false]
      refine ⟨ih.1, fun i hi hbit => ?_⟩
      rcases Nat.lt_succ_iff_lt_or_eq.mp hi with hlt | heq
      · exact ih.2 i hlt hbit
      · subst heq; exact absurd hbit (by simp [hm])

/-- For nonzero `v < 2^32`, `hb32 v` is the position of the highest set bit. -/
theorem hb32_spec {v : Nat} (hv : v ≠ 0) (hlt : v < 2 ^ 32) :
    2 ^ hb32 v ≤ v ∧ v < 2 ^ (hb32 v + 1) := by
  obtain ⟨i, hi⟩ := Nat.ne_zero_implies_bit_true hv
  have hi32 : i < 32 := by
    by_contra h
    rw [testBit_ge_32 hlt (by omega)] at hi
    exact Bool.false_ne_true hi
  have core := hb32_core v 32
  have hmax : ∀ j, j < 32 → v.testBit j = true → j ≤ hb32 v := core.2
  have htop : v.testBit (hb32 v) = true := by
    rcases core.1 with h0 | h
    · have : i ≤ hb32 v := hmax i hi32 hi
      rw [show hb32 v = (List.range 32).foldl (fun acc i => if v.testBit i then i else acc) 0 from rfl,
        h0] at this ⊢
      have : i = 0 := by omega
      subst this; exact hi
    · exact h
  refine ⟨Nat.testBit_implies_ge htop, Nat.lt_pow_two_of_testBit v fun j hj => ?_⟩
  by_cases hj32 : j < 32
  · by_contra hne
    have : v.testBit j = true := by
      cases h : v.testBit j
      · exact absurd h hne
      · rfl
    have := hmax j hj32 this
    omega
  · exact testBit_ge_32 hlt (by omega)

/-- The maximum-tracking fold of `computeBitsPerItem` written with `max`. -/
theorem foldl_if_max (l : List Nat) (acc : Nat) :
    l.foldl (fun m v => if v > m then v else m) acc = l.foldl max acc := by
  induction l generalizing acc with
  | nil => rfl
  | cons x xs ih =>
    simp only [List.foldl_cons]
    rw [show (if x > acc then x else acc) = max acc x by split <;> omega, ih]

/-- The fold maximum is below any bound dominating the list and the accumulator. -/
theorem foldl_max_lt (l : List Nat) (c : Nat) (hc : ∀ v ∈ l, v < c) :
    ∀ acc, acc < c → l.foldl max acc < c := by
  induction l with
  | nil => exact fun acc h => h
  | cons x xs ih =>
    intro acc hacc
    simp only [List.foldl_cons]
    refine ih (fun v hv => hc v (List.mem_cons_of_mem _ hv)) _ ?_
    have := hc x (List.mem_cons_self x xs)
    omega

/-- C6: `computeBitsPerItem` returns `position_of_highest_set_bit(max) + 1`
for a nonzero maximum (equivalently, the minimal width `r` with
`2^(r-1) ≤ max < 2^r`), and returns 1 when the list is empty or all zero; in
particular `[0] ↦ 1`, `[131071] ↦ 17` and `[] ↦ 1`. -/
theorem computeBitsPerItem_spec (l : List Nat) (hl : ∀ v ∈ l, v < 2 ^ 32) :
    (l.foldl max 0 = 0 → PackedArray_computeBitsPerItem l = 1) ∧
    (l.foldl max 0 ≠ 0 →
      PackedArray_computeBitsPerItem l = hb32 (l.foldl max 0) + 1 ∧
      2 ^ (PackedArray_computeBitsPerItem l - 1) ≤ l.foldl max 0 ∧
      l.foldl max 0 < 2 ^ PackedArray_computeBitsPerItem l) ∧
    PackedArray_computeBitsPerItem [0] = 1 ∧
    PackedArray_computeBitsPerItem [131071] = 17 ∧
    PackedArray_computeBitsPerItem [] = 1 := by
  have hfold := foldl_if_max l 0
  refine ⟨?_, ?_, by decide, by decide, by decide⟩
  · intro h0
    simp [PackedArray_computeBitsPerItem, __PackedArray_highestBitSet, hfold, h0]
  · intro h0
    have hM : l.foldl max 0 < 2 ^ 32 := foldl_max_lt l _ hl 0 (by decide)
    have hbs := hb32_spec h0 hM
    have he : PackedArray_computeBitsPerItem l = hb32 (l.foldl max 0) + 1 := by
      simp only [PackedArray_computeBitsPerItem, __PackedArray_highestBitSet, hfold, h0,
        if_false]
      have ht : ((hb32 (l.foldl max 0) : Int) + 1).toNat = hb32 (l.foldl max 0) + 1 := by
        omega
      rw [ht]
      simp
    rw [he]
    exact ⟨rfl, by simpa using hbs.1, hbs.2⟩

theorem computeBitsPerItem_spec_witness :
    (([131071] : List Nat).foldl max 0 = 0 → PackedArray_computeBitsPerItem [131071] = 1) ∧
    (([131071] : List Nat).foldl max 0 ≠ 0 →
      PackedArray_computeBitsPerItem [131071] = hb32 (([131071] : List Nat).foldl max 0) + 1 ∧
      2 ^ (PackedArray_computeBitsPerItem [131071] - 1) ≤ ([131071] : List Nat).foldl max 0 ∧
      ([131071] : List Nat).foldl max 0 < 2 ^ PackedArray_computeBitsPerItem [131071]) ∧
    PackedArray_computeBitsPerItem [0] = 1 ∧
    PackedArray_computeBitsPerItem [131071] = 17 ∧
    PackedArray_computeBitsPerItem [] = 1 := by
  refine computeBitsPerItem_spec [131071] ?_
  intro v hv
  rcases List.mem_singleton.mp hv with rfl
  decide

theorem mask32_and_lt {B : Nat} (h1 : 1 ≤ B) (h2 : B ≤ 32) (x : Nat) :
    x &&& mask32 B < 2 ^ B := by
  rw [mask32_eq h1 h2]
  have h := @Nat.and_le_right x (2 ^ B - 1)
  have hB : 1 ≤ 2 ^ B := Nat.one_le_two_pow
  omega

/-- Every unpack case appends exactly one element, masked with the item mask. -/
theorem unpackCase_out (B : Nat) (buf : Nat → Nat) (i : Nat) (s : UnpackSM) :
    ∃ x, (unpackCase B buf i s).out = s.out ++ [x &&& mask32 B] := by
  unfold unpackCase
  dsimp only
  split
  · split
    · exact ⟨_, rfl⟩
    · exact ⟨_, rfl⟩
  · exact ⟨_, rfl⟩

theorem unpackCase_bound {B : Nat} (h1 : 1 ≤ B) (h2 : B ≤ 32) (buf : Nat → Nat) (i : Nat)
    (s : UnpackSM) (hs : ∀ v ∈ s.out, v < 2 ^ B) :
    ∀ v ∈ (unpackCase B buf i s).out, v < 2 ^ B := by
  obtain ⟨x, hx⟩ := unpackCase_out B buf i s
  rw [hx]
  intro v hv
  rcases List.mem_append.mp hv with h | h
  · exact hs v h
  · rcases List.mem_singleton.mp h with rfl
    exact mask32_and_lt h1 h2 x

theorem unpackCases_bound {B : Nat} (h1 : 1 ≤ B) (h2 : B ≤ 32) (buf : Nat → Nat)
    (is : List Nat) :
    ∀ s : UnpackSM, (∀ v ∈ s.out, v < 2 ^ B) →
      ∀ v ∈ (unpackCases B buf is s).out, v < 2 ^ B := by
  induction is with
  | nil => exact fun s hs => hs
  | cons i is ih =>
    intro s hs
    exact ih _ (unpackCase_bound h1 h2 buf i s hs)

theorem unpackCycles_bound {B : Nat} (h1 : 1 ≤ B) (h2 : B ≤ 32) (buf : Nat → Nat) (r : Nat) :
    ∀ s : UnpackSM, (∀ v ∈ s.out, v < 2 ^ B) →
      ∀ v ∈ (unpackCycles B buf r s).out, v < 2 ^ B := by
  induction r with
  | zero => exact fun s hs => hs
  | succ r ih =>
    intro s hs
    exact ih _ (unpackCases_bound h1 h2 buf _ _ hs)

theorem unpackCasesBreak_bound {B : Nat} (h1 : 1 ≤ B) (h2 : B ≤ 32) (buf : Nat → Nat)
    (stop : Nat) (is : List Nat) :
    ∀ s : UnpackSM, (∀ v ∈ s.out, v < 2 ^ B) →
      ∀ v ∈ (unpackCasesBreak B buf stop is s).out, v < 2 ^ B := by
  induction is with
  | nil => exact fun s hs => hs
  | cons i is ih =>
    intro s hs
    have happ : ∀ x : Nat, ∀ v ∈ s.out ++ [x &&& mask32 B], v < 2 ^ B := by
      intro x v hv
      rcases List.mem_append.mp hv with h | h
      · exact hs v h
      · rcases List.mem_singleton.mp h with rfl
        exact mask32_and_lt h1 h2 x
    unfold unpackCasesBreak
    dsimp only
    split
    · split
      · exact happ _
      · split
        · exact ih _ (happ _)
        · exact ih _ (happ _)
    · split
      · exact happ _
      · exact ih _ (happ _)

/-- C9: for every array state (arbitrary 32-bit word contents), every
bitsPerItem in 1..32 and every offset, `get` returns a value strictly below
`2^bitsPerItem`, and every value written by `unpack` is strictly below
`2^bitsPerItem`. -/
theorem get_unpack_values_in_range (a : PackedArray) (offset n : Nat)
    (h1 : 1 ≤ a.bitsPerItem) (h2 : a.bitsPerItem ≤ 32)
    (hbuf : ∀ w, a.buffer w < 2 ^ 32) :
    PackedArray_get a offset < 2 ^ a.bitsPerItem ∧
    ∀ v ∈ PackedArray_unpack a offset n, v < 2 ^ a.bitsPerItem := by
  constructor
  · simp only [PackedArray_get]
    split
    · exact mask32_and_lt h1 h2 _
    · rename_i hno
      apply Nat.lt_pow_two_of_testBit
      intro j hj
      have hlow : (a.buffer (offset * a.bitsPerItem / 32) >>>
          (offset * a.bitsPerItem % 32)).testBit j = false := by
        rw [Nat.testBit_shiftRight]
        exact testBit_ge_32 (hbuf _) (by omega)
      have hm : (shl32 (mask32 a.bitsPerItem >>> (32 - offset * a.bitsPerItem % 32))
          (32 - offset * a.bitsPerItem % 32)).testBit j = false := by
        by_cases hj32 : j < 32
        · rw [testBit_shl32 _ _ _ hj32]
          by_cases hqa : 32 - offset * a.bitsPerItem % 32 ≤ j
          · rw [Nat.testBit_shiftRight, mask32_eq h1 h2]
            have : 32 - offset * a.bitsPerItem % 32 + (j - (32 - offset * a.bitsPerItem % 32)) = j := by
              omega
            rw [this]
            simp [hj, Nat.not_lt.mpr hj]
          · simp [hqa]
        · exact testBit_ge_32 (shl32_lt _ _) (by omega)
      simp [Nat.testBit_xor, Nat.testBit_and, hm, hlow]
  · simp only [PackedArray_unpack, h1, h2, and_true, true_and, if_pos]
    simp only [__PackedArray_unpack]
    split
    · split
      · exact unpackCycles_bound h1 h2 _ _ _ (unpackCases_bound h1 h2 _ _ _ (by simp))
      · exact unpackCasesBreak_bound h1 h2 _ _ _ _
          (unpackCycles_bound h1 h2 _ _ _ (unpackCases_bound h1 h2 _ _ _ (by simp)))
    · exact unpackCasesBreak_bound h1 h2 _ _ _ _ (by simp)

theorem get_unpack_values_in_range_witness :
    PackedArray_get ⟨3, 100, buf0⟩ 5 < 2 ^ (3:Nat) ∧
    ∀ v ∈ PackedArray_unpack ⟨3, 100, buf0⟩ 5 7, v < 2 ^ (3:Nat) :=
  get_unpack_values_in_range ⟨3, 100, buf0⟩ 5 7 (by decide) (by decide)
    (fun _ => Nat.two_pow_pos 32)

theorem bufWrite_self (buf : Nat → Nat) (w : Nat) : bufWrite buf w (buf w) = buf := by
  funext x
  unfold bufWrite
  split
  · rename_i h; rw [h]
  · rfl

/-- When the break target is already reached on entry (as happens for
`count == 0`), the break check placed after each case body never fires: the
run processes one item per remaining case. -/
theorem unpackCasesBreak_runaway (B : Nat) (buf : Nat → Nat) (stop : Nat) (is : List Nat) :
    ∀ s : UnpackSM, stop ≤ s.out.length →
      (unpackCasesBreak B buf stop is s).out.length = s.out.length + is.length := by
  induction is with
  | nil => intro s _; rfl
  | cons i is ih =>
    intro s hs
    unfold unpackCasesBreak
    dsimp only
    split
    · split
      · rename_i hstop
        exfalso
        rw [List.length_append] at hstop
        simp at hstop
        omega
      · split
        · rw [ih _ (by simp; omega)]
          simp
          omega
        · rw [ih _ (by simp; omega)]
          simp
          omega
    · split
      · rename_i hstop
        exfalso
        rw [List.length_append] at hstop
        simp at hstop
        omega
      · rw [ih _ (by simp; omega)]
        simp
        omega

/-- C5 counterexample: with count = 0 the specialized path is not a no-op.
Unpacking 0 items writes 32 values to the output array, and packing 0 items
modifies the buffer. -/
theorem count_zero_not_noop_example :
    PackedArray_unpack ⟨1, 32, buf0⟩ 0 0 ≠ [] ∧
    (PackedArray_pack ⟨1, 32, buf0⟩ 0 (fun _ => 1) 0).buffer 0 ≠ buf0 0 := by
  constructor <;> decide

/-- C5 amended: with count = 0 the generic engine is a pure no-op (the buffer
is written back unchanged and no output is produced), but the specialized path
is not: its unpack emits `32 - offset % 32` items (one per remaining switch
case, the break check coming only after each item is processed). -/
theorem count_zero_generic_noop_specialized_not (B offset : Nat) (buf vin : Nat → Nat) :
    packBuffer B buf offset vin 0 = buf ∧
    unpackList B buf offset 0 = [] ∧
    (__PackedArray_unpack B buf offset 0).length = 32 - offset % 32 := by
  refine ⟨?_, rfl, ?_⟩
  · show bufWrite buf (offset * B / 32) (buf (offset * B / 32)) = buf
    exact bufWrite_self buf _
  · simp only [__PackedArray_unpack]
    rw [if_neg (by omega)]
    rw [unpackCasesBreak_runaway B buf 0 _ _ (by simp)]
    simp

/-! ### Spec-side lemmas -/

theorem bufBit_word (buf : Nat → Nat) (w' i : Nat) (hi : i < 32) :
    bufBit buf (32 * w' + i) = (buf w').testBit i := by
  unfold bufBit
  have e1 : (32 * w' + i) / 32 = w' := by omega
  have e2 : (32 * w' + i) % 32 = i := by omega
  rw [e1, e2]

theorem packBitSpec_out (B offset n : Nat) (vin buf : Nat → Nat) (p : Nat)
    (h : p < offset * B ∨ offset * B + n * B ≤ p) :
    packBitSpec B offset n vin buf p = bufBit buf p := by
  unfold packBitSpec
  rw [if_neg]
  omega

theorem packBitSpec_in (B offset n : Nat) (vin buf : Nat → Nat) (k t : Nat)
    (hB : 1 ≤ B) (hk : k < n) (ht : t < B) :
    packBitSpec B offset n vin buf (offset * B + k * B + t) = (vin k).testBit t := by
  unfold packBitSpec
  rw [if_pos]
  · have e : offset * B + k * B + t - offset * B = t + k * B := by omega
    rw [e, Nat.add_mul_div_right _ _ (by omega), Nat.div_eq_of_lt ht,
      Nat.add_mul_mod_self_right, Nat.mod_eq_of_lt ht, Nat.zero_add]
  · constructor
    · omega
    · have : (k + 1) * B ≤ n * B := Nat.mul_le_mul_right B hk
      have e : (k + 1) * B = k * B + B := by ring
      omega

theorem packWordSpec_unique {B offset n : Nat} {vin buf : Nat → Nat} {w' x y : Nat}
    (hx : packWordSpec B offset n vin buf w' x) (hy : packWordSpec B offset n vin buf w' y) :
    x = y :=
  Nat.eq_of_testBit_eq fun i => (hx i).trans (hy i).symm

theorem packWordSpec_lt {B offset n : Nat} {vin buf : Nat → Nat} {w' x : Nat}
    (hx : packWordSpec B offset n vin buf w' x) : x < 2 ^ 32 :=
  Nat.lt_pow_two_of_testBit x fun i hi => by
    rw [hx i]
    simp [Nat.not_lt.mpr hi]

/-- A word of an untouched buffer region satisfies the pack characterization
when all its bit positions lie outside the written window. -/
theorem packWordSpec_untouched {B offset n : Nat} {vin buf : Nat → Nat} (w' : Nat)
    (hbuf : buf w' < 2 ^ 32)
    (h : ∀ i, i < 32 → 32 * w' + i < offset * B ∨ offset * B + n * B ≤ 32 * w' + i) :
    packWordSpec B offset n vin buf w' (buf w') := by
  intro i
  by_cases hi : i < 32
  · rw [packBitSpec_out _ _ _ _ _ _ (h i hi), bufBit_word _ _ _ hi]
    simp [hi]
  · have hz : (buf w').testBit i = false := testBit_ge_32 hbuf (by omega)
    simp [hi, hz]

theorem offset_mod_mul (offset B : Nat) : offset % 32 * B % 32 = offset * B % 32 := by
  conv_rhs => rw [Nat.mul_mod]
  rw [Nat.mul_mod]
  simp

/-! ### Merge and extraction lemmas -/

theorem testBit_merge_fits {B : Nat} (h1 : 1 ≤ B) (h2 : B ≤ 32) {v : Nat} (hv : v < 2 ^ B)
    (p sb i : Nat) (hi : i < 32) :
    ((p &&& compl32 (shl32 (mask32 B) sb)) ||| shl32 v sb).testBit i =
      (if sb ≤ i ∧ i < sb + B then v.testBit (i - sb) else p.testBit i) := by
  rw [Nat.testBit_or, Nat.testBit_and, testBit_compl32 _ _ hi, testBit_shl32 _ _ _ hi,
    testBit_shl32 _ _ _ hi, mask32_eq h1 h2, Nat.testBit_two_pow_sub_one]
  by_cases hsb : sb ≤ i
  · by_cases hib : i < sb + B
    · simp [hsb, hib, show i - sb < B by omega]
    · have hvb : v.testBit (i - sb) = false :=
        Nat.testBit_lt_two_pow (lt_of_lt_of_le hv (Nat.pow_le_pow_right (by decide) (by omega)))
      simp [hsb, hib, hvb, show ¬ i - sb < B by omega]
  · simp [hsb, show ¬ (sb ≤ i ∧ i < sb + B) by omega]

theorem testBit_merge_high {B : Nat} (h1 : 1 ≤ B) (h2 : B ≤ 32) {v : Nat} (hv : v < 2 ^ B)
    (c avail i : Nat) (hi : i < 32) :
    ((c &&& compl32 (mask32 B >>> avail)) ||| (v >>> avail)).testBit i =
      (if avail + i < B then v.testBit (avail + i) else c.testBit i) := by
  rw [Nat.testBit_or, Nat.testBit_and, testBit_compl32 _ _ hi, Nat.testBit_shiftRight,
    Nat.testBit_shiftRight, mask32_eq h1 h2, Nat.testBit_two_pow_sub_one]
  by_cases hab : avail + i < B
  · simp [hab]
  · have hvb : v.testBit (avail + i) = false :=
      Nat.testBit_lt_two_pow (lt_of_lt_of_le hv (Nat.pow_le_pow_right (by decide) (by omega)))
    simp [hab, hvb]

theorem testBit_or_shl32 {B : Nat} (h1 : 1 ≤ B) (h2 : B ≤ 32) {v : Nat} (hv : v < 2 ^ B)
    (p sb i : Nat) (hi : i < 32) :
    (p ||| shl32 v sb).testBit i =
      (if sb ≤ i ∧ i < sb + B then p.testBit i || v.testBit (i - sb) else p.testBit i) := by
  rw [Nat.testBit_or, testBit_shl32 _ _ _ hi]
  by_cases hsb : sb ≤ i
  · by_cases hib : i < sb + B
    · simp [hsb, hib]
    · have hvb : v.testBit (i - sb) = false :=
        Nat.testBit_lt_two_pow (lt_of_lt_of_le hv (Nat.pow_le_pow_right (by decide) (by omega)))
      simp [hsb, hib, hvb]
  · simp [hsb, show ¬ (sb ≤ i ∧ i < sb + B) by omega]

/-! ### Characterization of the generic pack engine -/

theorem packStep_inv {B offset n : Nat} {vin buf : Nat → Nat}
    (h1 : 1 ≤ B) (h2 : B ≤ 32) (hbuf : ∀ w, buf w < 2 ^ 32)
    (hvin : ∀ j, j < n → vin j < 2 ^ B) {j : Nat} (hj : j < n) {s : PackCursor}
    (hs : PackCursorInv B offset n vin buf j s) :
    PackCursorInv B offset n vin buf (j + 1) (packStep B (vin j) s) := by
  obtain ⟨heq, hsb, havail, hw0, hlo, hhi, hmid, hpacked⟩ := hs
  have hmul : (j + 1) * B = j * B + B := by ring
  have hv := hvin j hj
  have hv32 : vin j < 2 ^ 32 := lt_of_lt_of_le hv (Nat.pow_le_pow_right (by decide) h2)
  unfold packStep
  rw [havail]
  by_cases hfits : B ≤ 32 - s.startBit
  · rw [if_pos hfits]
    refine ⟨?_, ?_, ?_, ?_, ?_, ?_, ?_, ?_⟩ <;> dsimp only
    · omega
    · omega
    · omega
    · exact hw0
    · exact hlo
    · exact hhi
    · exact hmid
    · intro i
      by_cases hi : i < 32
      · rw [testBit_merge_fits h1 h2 hv _ _ _ hi]
        by_cases hc : s.startBit ≤ i ∧ i < s.startBit + B
        · rw [if_pos hc]
          have hpos : 32 * s.w + i = offset * B + j * B + (i - s.startBit) := by omega
          rw [show (decide (i < 32) && if 32 * s.w + i < offset * B + (j + 1) * B then
              packBitSpec B offset n vin buf (32 * s.w + i) else (buf s.w).testBit i) =
              packBitSpec B offset n vin buf (32 * s.w + i) by
            simp [hi]
            intro hc2
            omega]
          rw [hpos, packBitSpec_in _ _ _ _ _ _ _ h1 hj (by omega)]
        · rw [if_neg hc, hpacked i]
          congr 1
          by_cases hpos : 32 * s.w + i < offset * B + j * B
          · rw [if_pos hpos, if_pos (by omega)]
          · rw [if_neg hpos, if_neg (by omega)]
      · have e1 : (compl32 (shl32 (mask32 B) s.startBit)).testBit i = false :=
          testBit_ge_32 (compl32_lt _) (by omega)
        have e2 : (shl32 (vin j) s.startBit).testBit i = false :=
          testBit_ge_32 (shl32_lt _ _) (by omega)
        simp [Nat.testBit_or, Nat.testBit_and, e1, e2, hi]
  · rw [if_neg hfits]
    by_cases hz : 32 - s.startBit = 0
    · rw [if_pos hz]
      have hsb32 : s.startBit = 32 := by omega
      have hnext : bufWrite s.buf s.w s.packed (s.w + 1) = buf (s.w + 1) := by
        rw [bufWrite_other _ _ _ _ (by omega)]
        exact hhi _ (by omega)
      have ev : shl32 (vin j) 0 = vin j := by
        unfold shl32
        rw [Nat.shiftLeft_zero, Nat.mod_eq_of_lt hv32]
      have em : shl32 (mask32 B) 0 = mask32 B := by
        unfold shl32
        rw [Nat.shiftLeft_zero, Nat.mod_eq_of_lt (mask32_lt B)]
      refine ⟨?_, ?_, ?_, ?_, ?_, ?_, ?_, ?_⟩ <;> dsimp only
      · omega
      · omega
      · omega
      · omega
      · intro w' hw'
        rw [bufWrite_other _ _ _ _ (by omega)]
        exact hlo w' hw'
      · intro w' hw'
        rw [bufWrite_other _ _ _ _ (by omega)]
        exact hhi w' (by omega)
      · intro w' hge hlt
        by_cases hww : w' = s.w
        · subst hww
          rw [bufWrite_same]
          intro i
          by_cases hi : i < 32
          · rw [hpacked i, if_pos (by omega)]
          · simp [hpacked i, hi]
        · rw [bufWrite_other _ _ _ _ hww]
          exact hmid w' hge (by omega)
      · intro i
        rw [hnext]
        by_cases hi : i < 32
        · rw [show (buf (s.w + 1) &&& compl32 (mask32 B)) ||| vin j =
              (buf (s.w + 1) &&& compl32 (shl32 (mask32 B) 0)) ||| shl32 (vin j) 0 by
            rw [ev, em]]
          rw [testBit_merge_fits h1 h2 hv _ _ _ hi]
          by_cases hc : i < B
          · rw [if_pos (by omega)]
            have hpos : 32 * (s.w + 1) + i = offset * B + j * B + i := by omega
            rw [show (decide (i < 32) && if 32 * (s.w + 1) + i < offset * B + (j + 1) * B then
                packBitSpec B offset n vin buf (32 * (s.w + 1) + i)
                else (buf (s.w + 1)).testBit i) =
                packBitSpec B offset n vin buf (32 * (s.w + 1) + i) by
              simp [hi]
              intro hc2
              omega]
            rw [hpos, packBitSpec_in _ _ _ _ _ _ _ h1 hj hc]
            simp
          · rw [if_neg (by omega)]
            simp only [hi, decide_True, Bool.true_and]
            rw [if_neg (by omega)]
        · have e1 : (compl32 (mask32 B)).testBit i = false :=
            testBit_ge_32 (compl32_lt _) (by omega)
          have e2 : (vin j).testBit i = false := testBit_ge_32 hv32 (by omega)
          simp [Nat.testBit_or, Nat.testBit_and, e1, e2, hi]
    · rw [if_neg hz]
      have hsblt : s.startBit < 32 := by omega
      have hsbB : 32 < s.startBit + B := by omega
      have hnext : bufWrite s.buf s.w
          ((s.packed &&& compl32 (shl32 (mask32 B) s.startBit)) ||| shl32 (vin j) s.startBit)
          (s.w + 1) = buf (s.w + 1) := by
        rw [bufWrite_other _ _ _ _ (by omega)]
        exact hhi _ (by omega)
      refine ⟨?_, ?_, ?_, ?_, ?_, ?_, ?_, ?_⟩ <;> dsimp only
      · omega
      · omega
      · omega
      · intro w' hw'
        rw [bufWrite_other _ _ _ _ (by omega)]
        exact hlo w' hw'
      · intro w' hw'
        rw [bufWrite_other _ _ _ _ (by omega)]
        exact hhi w' (by omega)
      · intro w' hge hlt
        by_cases hww : w' = s.w
        · subst hww
          rw [bufWrite_same]
          intro i
          by_cases hi : i < 32
          · rw [testBit_merge_fits h1 h2 hv _ _ _ hi]
            by_cases hc : s.startBit ≤ i
            · rw [if_pos (by omega)]
              have hpos : 32 * s.w + i = offset * B + j * B + (i - s.startBit) := by omega
              rw [hpos, packBitSpec_in _ _ _ _ _ _ _ h1 hj (by omega)]
              simp [hi]
            · rw [if_neg (by omega), hpacked i, if_pos (by omega)]
          · have e1 : (compl32 (shl32 (mask32 B) s.startBit)).testBit i = false :=
              testBit_ge_32 (compl32_lt _) (by omega)
            have e2 : (shl32 (vin j) s.startBit).testBit i = false :=
              testBit_ge_32 (shl32_lt _ _) (by omega)
            simp [Nat.testBit_or, Nat.testBit_and, e1, e2, hi, hpacked i]
        · rw [bufWrite_other _ _ _ _ hww]
          exact hmid w' hge (by omega)
      · intro i
        rw [hnext]
        by_cases hi : i < 32
        · rw [testBit_merge_high h1 h2 hv _ _ _ hi]
          by_cases hc : 32 - s.startBit + i < B
          · rw [if_pos hc]
            have hpos : 32 * (s.w + 1) + i = offset * B + j * B + (32 - s.startBit + i) := by
              omega
            rw [show (decide (i < 32) && if 32 * (s.w + 1) + i < offset * B + (j + 1) * B then
                packBitSpec B offset n vin buf (32 * (s.w + 1) + i)
                else (buf (s.w + 1)).testBit i) =
                packBitSpec B offset n vin buf (32 * (s.w + 1) + i) by
              simp [hi]
              intro hc2
              omega]
            rw [hpos, packBitSpec_in _ _ _ _ _ _ _ h1 hj hc]
          · rw [if_neg hc]
            simp only [hi, decide_True, Bool.true_and]
            rw [if_neg (by omega)]
        · have e1 : (compl32 (mask32 B >>> (32 - s.startBit))).testBit i = false :=
            testBit_ge_32 (compl32_lt _) (by omega)
          have e2 : ((vin j) >>> (32 - s.startBit)).testBit i = false := by
            rw [Nat.testBit_shiftRight]
            exact testBit_ge_32 hv32 (by omega)
          simp [Nat.testBit_or, Nat.testBit_and, e1, e2, hi]

theorem packLoop_inv {B offset n : Nat} {vin buf : Nat → Nat}
    (h1 : 1 ≤ B) (h2 : B ≤ 32) (hbuf : ∀ w, buf w < 2 ^ 32)
    (hvin : ∀ j, j < n → vin j < 2 ^ B) :
    ∀ r j, j + r ≤ n → ∀ s : PackCursor, PackCursorInv B offset n vin buf j s →
      PackCursorInv B offset n vin buf (j + r) (packLoop B vin j r s) := by
  intro r
  induction r with
  | zero => intro j _ s hs; exact hs
  | succ r ih =>
    intro j hjr s hs
    have step := packStep_inv h1 h2 hbuf hvin (by omega) hs
    have hrec := ih (j + 1) (by omega) _ step
    rw [show j + (r + 1) = j + 1 + r by omega]
    simp only [packLoop]
    exact hrec

theorem packBuffer_init (B offset n : Nat) (vin buf : Nat → Nat)
    (hbuf : ∀ w, buf w < 2 ^ 32) :
    PackCursorInv B offset n vin buf 0
      { buf := buf, w := offset * B / 32, startBit := offset * B % 32,
        bitsAvailable := 32 - offset * B % 32, packed := buf (offset * B / 32) } := by
  refine ⟨?_, ?_, rfl, le_refl _, fun w' _ => rfl, fun w' _ => rfl, ?_, ?_⟩
  · dsimp only; omega
  · dsimp only; omega
  · intro w' hge hlt
    dsimp only at hge hlt
    omega
  · intro i
    dsimp only
    by_cases hi : i < 32
    · by_cases hpos : 32 * (offset * B / 32) + i < offset * B + 0 * B
      · rw [if_pos hpos, packBitSpec_out _ _ _ _ _ _ (Or.inl (by omega)),
          bufBit_word _ _ _ hi]
        simp [hi]
      · rw [if_neg hpos]
        simp [hi]
    · have hz : (buf (offset * B / 32)).testBit i = false :=
        testBit_ge_32 (hbuf _) (by omega)
      simp [hi, hz]

theorem packFinal_spec {B offset n : Nat} {vin buf : Nat → Nat}
    (hbuf : ∀ w, buf w < 2 ^ 32) {s : PackCursor}
    (hs : PackCursorInv B offset n vin buf n s) :
    ∀ w', packWordSpec B offset n vin buf w' (bufWrite s.buf s.w s.packed w') := by
  obtain ⟨heq, hsb, havail, hw0, hlo, hhi, hmid, hpacked⟩ := hs
  intro w'
  by_cases hww : w' = s.w
  · subst hww
    rw [bufWrite_same]
    intro i
    by_cases hi : i < 32
    · rw [hpacked i]
      by_cases hpos : 32 * s.w + i < offset * B + n * B
      · rw [if_pos hpos]
      · rw [if_neg hpos]
        rw [packBitSpec_out _ _ _ _ _ _ (Or.inr (by omega)), bufBit_word _ _ _ hi]
    · simp [hpacked i, hi]
  · rw [bufWrite_other _ _ _ _ hww]
    by_cases hcase : w' < offset * B / 32
    · rw [hlo w' hcase]
      refine packWordSpec_untouched w' (hbuf w') ?_
      intro i hi
      left
      omega
    · by_cases hup : s.w ≤ w'
      · rw [hhi w' hup]
        refine packWordSpec_untouched w' (hbuf w') ?_
        intro i hi
        right
        omega
      · exact hmid w' (by omega) (by omega)

/-- The generic pack engine realizes the bit-level pack specification on every
buffer word. -/
theorem packBuffer_spec (B offset n : Nat) (vin buf : Nat → Nat)
    (h1 : 1 ≤ B) (h2 : B ≤ 32) (hbuf : ∀ w, buf w < 2 ^ 32)
    (hvin : ∀ j, j < n → vin j < 2 ^ B) :
    ∀ w', packWordSpec B offset n vin buf w' (packBuffer B buf offset vin n w') := by
  have h0 := packBuffer_init B offset n vin buf hbuf
  have hfin := packLoop_inv h1 h2 hbuf hvin n 0 (by omega) _ h0
  rw [Nat.zero_add] at hfin
  exact packFinal_spec hbuf hfin

/-! ### Characterization of the specialized pack engine -/

theorem packCase_inv {B offset n : Nat} {vin buf : Nat → Nat}
    (h1 : 1 ≤ B) (h2 : B ≤ 32) (hbuf : ∀ w, buf w < 2 ^ 32)
    (hvin : ∀ j, j < n → vin j < 2 ^ B) {i j : Nat} (hi : i < 32) (hj : j < n)
    {s : PackSM} (hs : PackSMInv B offset n vin buf i j s) :
    PackSMInv B offset n vin buf (i + 1) (j + 1) (packCase B vin i s) := by
  obtain ⟨hjj, heq, hw0, hlo, hhi, hmid, hpacked⟩ := hs
  have hsb31 : i * B % 32 < 32 := by omega
  have e1 : (i + 1) * B = i * B + B := by ring
  have e2 : (i + 1) * B % 32 = (i * B % 32 + B) % 32 := by rw [e1]; omega
  have hjmul : (j + 1) * B = j * B + B := by ring
  have hv : vin s.j < 2 ^ B := by rw [hjj]; exact hvin j hj
  have hv32 : vin s.j < 2 ^ 32 := lt_of_lt_of_le hv (Nat.pow_le_pow_right (by decide) h2)
  unfold packCase
  dsimp only
  by_cases hfits : B ≤ 32 - i * B % 32
  · rw [if_pos hfits]
    by_cases hex : B = 32 - i * B % 32
    · rw [if_pos hex]
      have hsb' : (i + 1) * B % 32 = 0 := by omega
      refine ⟨?_, ?_, ?_, ?_, ?_, ?_, ?_⟩ <;> dsimp only
      · omega
      · omega
      · omega
      · intro w' hw'
        rw [bufWrite_other _ _ _ _ (by omega)]
        exact hlo w' hw'
      · intro w' hw'
        rw [bufWrite_other _ _ _ _ (by omega)]
        exact hhi w' (by omega)
      · intro w' hge hlt
        by_cases hww : w' = s.w
        · subst hww
          rw [bufWrite_same]
          intro t
          by_cases ht : t < 32
          · rw [testBit_or_shl32 h1 h2 hv _ _ _ ht]
            by_cases hc : i * B % 32 ≤ t
            · rw [if_pos (by omega)]
              have hz : s.packed.testBit t = false := by
                rw [hpacked t]
                simp [show ¬ t < i * B % 32 by omega]
              have hpos : 32 * s.w + t = offset * B + j * B + (t - i * B % 32) := by omega
              rw [hz, hpos, packBitSpec_in _ _ _ _ _ _ _ h1 hj (by omega), hjj]
              simp [ht]
            · rw [if_neg (by omega), hpacked t]
              simp [show t < i * B % 32 by omega, ht]
          · have hz : s.packed.testBit t = false := by
              rw [hpacked t]
              simp [show ¬ t < i * B % 32 by omega]
            have hz2 : (shl32 (vin s.j) (i * B % 32)).testBit t = false :=
              testBit_ge_32 (shl32_lt _ _) (by omega)
            simp [Nat.testBit_or, hz, hz2, ht]
        · rw [bufWrite_other _ _ _ _ hww]
          exact hmid w' hge (by omega)
      · intro t
        rw [hsb']
        simp
    · rw [if_neg hex]
      have hlt' : i * B % 32 + B < 32 := by omega
      have hsb' : (i + 1) * B % 32 = i * B % 32 + B := by omega
      refine ⟨?_, ?_, ?_, ?_, ?_, ?_, ?_⟩ <;> dsimp only
      · omega
      · omega
      · exact hw0
      · exact hlo
      · exact hhi
      · exact hmid
      · intro t
        rw [hsb']
        by_cases ht : t < 32
        · rw [testBit_or_shl32 h1 h2 hv _ _ _ ht]
          by_cases hc : i * B % 32 ≤ t ∧ t < i * B % 32 + B
          · rw [if_pos hc]
            have hz : s.packed.testBit t = false := by
              rw [hpacked t]
              simp [show ¬ t < i * B % 32 by omega]
            have hpos : 32 * s.w + t = offset * B + j * B + (t - i * B % 32) := by omega
            rw [hz, hpos, packBitSpec_in _ _ _ _ _ _ _ h1 hj (by omega), hjj]
            simp [ht, show t < i * B % 32 + B by omega]
          · rw [if_neg hc, hpacked t]
            by_cases hc2 : t < i * B % 32
            · simp [hc2, show t < i * B % 32 + B by omega]
            · simp [hc2, show ¬ t < i * B % 32 + B by omega]
        · have hz : s.packed.testBit t = false := by
            rw [hpacked t]
            simp [show ¬ t < i * B % 32 by omega]
          have hz2 : (shl32 (vin s.j) (i * B % 32)).testBit t = false :=
            testBit_ge_32 (shl32_lt _ _) (by omega)
          simp [Nat.testBit_or, hz, hz2, ht, show ¬ t < i * B % 32 + B by omega]
  · rw [if_neg hfits]
    have hstr : 32 < i * B % 32 + B := by omega
    have hsb' : (i + 1) * B % 32 = i * B % 32 + B - 32 := by omega
    refine ⟨?_, ?_, ?_, ?_, ?_, ?_, ?_⟩ <;> dsimp only
    · omega
    · omega
    · omega
    · intro w' hw'
      rw [bufWrite_other _ _ _ _ (by omega)]
      exact hlo w' hw'
    · intro w' hw'
      rw [bufWrite_other _ _ _ _ (by omega)]
      exact hhi w' (by omega)
    · intro w' hge hlt
      by_cases hww : w' = s.w
      · subst hww
        rw [bufWrite_same]
        intro t
        by_cases ht : t < 32
        · rw [testBit_or_shl32 h1 h2 hv _ _ _ ht]
          by_cases hc : i * B % 32 ≤ t
          · rw [if_pos (by omega)]
            have hz : s.packed.testBit t = false := by
              rw [hpacked t]
              simp [show ¬ t < i * B % 32 by omega]
            have hpos : 32 * s.w + t = offset * B + j * B + (t - i * B % 32) := by omega
            rw [hz, hpos, packBitSpec_in _ _ _ _ _ _ _ h1 hj (by omega), hjj]
            simp [ht]
          · rw [if_neg (by omega), hpacked t]
            simp [show t < i * B % 32 by omega, ht]
        · have hz : s.packed.testBit t = false := by
            rw [hpacked t]
            simp [show ¬ t < i * B % 32 by omega]
          have hz2 : (shl32 (vin s.j) (i * B % 32)).testBit t = false :=
            testBit_ge_32 (shl32_lt _ _) (by omega)
          simp [Nat.testBit_or, hz, hz2, ht]
      · rw [bufWrite_other _ _ _ _ hww]
        exact hmid w' hge (by omega)
    · intro t
      rw [hsb', Nat.testBit_shiftRight]
      by_cases hc : t < i * B % 32 + B - 32
      · have hpos : 32 * (s.w + 1) + t = offset * B + j * B + (32 - i * B % 32 + t) := by
          omega
        rw [hpos, packBitSpec_in _ _ _ _ _ _ _ h1 hj (by omega), hjj]
        simp [hc, show t < 32 by omega]
      · have hz : (vin s.j).testBit (32 - i * B % 32 + t) = false :=
          Nat.testBit_lt_two_pow
            (lt_of_lt_of_le hv (Nat.pow_le_pow_right (by decide) (by omega)))
        simp [hc, hz]

theorem packCases_inv {B offset n : Nat} {vin buf : Nat → Nat}
    (h1 : 1 ≤ B) (h2 : B ≤ 32) (hbuf : ∀ w, buf w < 2 ^ 32)
    (hvin : ∀ j, j < n → vin j < 2 ^ B) :
    ∀ k i j, i + k = 32 → j + k ≤ n → ∀ s : PackSM, PackSMInv B offset n vin buf i j s →
      PackSMInv B offset n vin buf 32 (j + k) (packCases B vin (List.range' i k) s) := by
  intro k
  induction k with
  | zero =>
    intro i j hik _ s hs
    rw [show i = 32 by omega] at hs
    simpa [packCases] using hs
  | succ k ih =>
    intro i j hik hjk s hs
    have hi : i < 32 := by omega
    have hstep := packCase_inv h1 h2 hbuf hvin hi (by omega) hs
    have hrec := ih (i + 1) (j + 1) (by omega) (by omega) _ hstep
    rw [show j + (k + 1) = j + 1 + k by omega, List.range'_succ]
    simpa [packCases] using hrec

theorem packSMInv_wrap {B offset n : Nat} {vin buf : Nat → Nat} {j : Nat} {s : PackSM}
    (hs : PackSMInv B offset n vin buf 32 j s) : PackSMInv B offset n vin buf 0 j s := by
  obtain ⟨hjj, heq, hw0, hlo, hhi, hmid, hpacked⟩ := hs
  have e : 32 * B % 32 = 0 := by omega
  have e0 : 0 * B % 32 = 0 := by omega
  rw [e] at heq
  refine ⟨hjj, ?_, hw0, hlo, hhi, hmid, ?_⟩
  · rw [e0]
    exact heq
  · intro t
    rw [e0, hpacked t, e]

theorem packCycles_inv {B offset n : Nat} {vin buf : Nat → Nat}
    (h1 : 1 ≤ B) (h2 : B ≤ 32) (hbuf : ∀ w, buf w < 2 ^ 32)
    (hvin : ∀ j, j < n → vin j < 2 ^ B) :
    ∀ r j, j + 32 * r ≤ n → ∀ s : PackSM, PackSMInv B offset n vin buf 0 j s →
      PackSMInv B offset n vin buf 0 (j + 32 * r) (packCycles B vin r s) := by
  intro r
  induction r with
  | zero => intro j _ s hs; simpa [packCycles] using hs
  | succ r ih =>
    intro j hr s hs
    have hcyc := packCases_inv h1 h2 hbuf hvin 32 0 j (by omega) (by omega) s hs
    have hwrap := packSMInv_wrap hcyc
    have hrec := ih (j + 32) (by omega) _ hwrap
    rw [show j + 32 * (r + 1) = j + 32 + 32 * r by ring]
    simpa [packCycles] using hrec

theorem packCasesBreak_inv {B offset n : Nat} {vin buf : Nat → Nat}
    (h1 : 1 ≤ B) (h2 : B ≤ 32) (hbuf : ∀ w, buf w < 2 ^ 32)
    (hvin : ∀ j, j < n → vin j < 2 ^ B) :
    ∀ k i j m, i + k = 32 → 1 ≤ m → m ≤ k → j + m ≤ n →
      ∀ s : PackSM, PackSMInv B offset n vin buf i j s →
      PackSMInv B offset n vin buf (i + m) (j + m)
        (packCasesBreak B vin (j + m) (List.range' i k) s) := by
  intro k
  induction k with
  | zero => intro i j m _ hm1 hm2 _ s _; omega
  | succ k ih =>
    intro i j m hik hm1 hm2 hjm s hs
    have hi : i < 32 := by omega
    have hstep := packCase_inv h1 h2 hbuf hvin hi (by omega) hs
    have hj1 : (packCase B vin i s).j = j + 1 := hstep.hj
    rw [List.range'_succ]
    show PackSMInv _ _ _ _ _ (i + m) (j + m)
      (if (packCase B vin i s).j = j + m then packCase B vin i s
       else packCasesBreak B vin (j + m) (List.range' (i + 1) k) (packCase B vin i s))
    by_cases hm : m = 1
    · subst hm
      rw [if_pos (by rw [hj1])]
      exact hstep
    · rw [if_neg (by rw [hj1]; omega)]
      have hrec := ih (i + 1) (j + 1) (m - 1) (by omega) (by omega) (by omega) (by omega)
        _ hstep
      rw [show j + 1 + (m - 1) = j + m by omega, show i + 1 + (m - 1) = i + m by omega]
        at hrec
      exact hrec

theorem packSMInv_final_buf {B offset n : Nat} {vin buf : Nat → Nat}
    (hbuf : ∀ w, buf w < 2 ^ 32) {i : Nat} {s : PackSM}
    (hs : PackSMInv B offset n vin buf i n s) (hsb0 : i * B % 32 = 0) :
    ∀ w', packWordSpec B offset n vin buf w' (s.buf w') := by
  obtain ⟨hjj, heq, hw0, hlo, hhi, hmid, hpacked⟩ := hs
  rw [hsb0] at heq
  intro w'
  by_cases hcase : w' < offset * B / 32
  · rw [hlo w' hcase]
    exact packWordSpec_untouched w' (hbuf w') (fun t ht => Or.inl (by omega))
  · by_cases hup : s.w ≤ w'
    · rw [hhi w' hup]
      exact packWordSpec_untouched w' (hbuf w') (fun t ht => Or.inr (by omega))
    · exact hmid w' (by omega) (by omega)

theorem packFlushTail_spec {B offset n : Nat} {vin buf : Nat → Nat}
    (h1 : 1 ≤ B) (h2 : B ≤ 32) (hbuf : ∀ w, buf w < 2 ^ 32)
    {i cnt sbv j : Nat} {s : PackSM}
    (hs : PackSMInv B offset n vin buf i j s) (hjn : j = n)
    (hcnt : (cnt * B + sbv) % 32 = (offset * B + n * B) % 32) :
    ∀ w', packWordSpec B offset n vin buf w' (packFlushTail B cnt sbv s w') := by
  subst hjn
  have hsbi : i * B % 32 < 32 := by omega
  unfold packFlushTail
  by_cases hnz : (cnt * B + sbv) % 32 ≠ 0
  · rw [if_pos hnz]
    obtain ⟨hjj, heq, hw0, hlo, hhi, hmid, hpacked⟩ := hs
    have hfb : (cnt * B + sbv - 1) % 32 + 1 = i * B % 32 := by omega
    have hfb1 : 1 ≤ i * B % 32 := by omega
    intro w'
    by_cases hww : w' = s.w
    · subst hww
      rw [bufWrite_same, hfb, hhi s.w (le_refl _)]
      intro t
      by_cases ht : t < 32
      · rw [Nat.testBit_or, Nat.testBit_and, testBit_compl32 _ _ ht,
          mask32_eq hfb1 (by omega), Nat.testBit_two_pow_sub_one]
        by_cases hc : t < i * B % 32
        · rw [hpacked t]
          simp [hc, ht]
        · have hz : s.packed.testBit t = false := by
            rw [hpacked t]
            simp [hc]
          rw [hz, packBitSpec_out _ _ _ _ _ _ (Or.inr (by omega)), bufBit_word _ _ _ ht]
          simp [hc, ht]
      · have hz : s.packed.testBit t = false := by
          rw [hpacked t]
          simp [show ¬ t < i * B % 32 by omega]
        have hz2 : (buf s.w).testBit t = false := testBit_ge_32 (hbuf _) (by omega)
        simp [Nat.testBit_or, Nat.testBit_and, hz, hz2, ht]
    · rw [bufWrite_other _ _ _ _ hww]
      by_cases hcase : w' < offset * B / 32
      · rw [hlo w' hcase]
        exact packWordSpec_untouched w' (hbuf w') (fun t ht => Or.inl (by omega))
      · by_cases hup : s.w ≤ w'
        · rw [hhi w' hup]
          refine packWordSpec_untouched w' (hbuf w') (fun t ht => Or.inr (by omega))
        · exact hmid w' (by omega) (by omega)
  · rw [if_neg hnz]
    have hsb0 : i * B % 32 = 0 := by
      have := hs.heq
      omega
    exact packSMInv_final_buf hbuf hs hsb0

theorem packSMInv_start (B offset n : Nat) (vin buf : Nat → Nat)
    (hbuf : ∀ w, buf w < 2 ^ 32) :
    PackSMInv B offset n vin buf (offset % 32) 0
      { buf := buf, w := offset * B / 32, j := 0,
        packed := buf (offset * B / 32) &&& (2 ^ (offset * B % 32) - 1) } := by
  refine ⟨rfl, ?_, le_refl _, fun w' _ => rfl, fun w' _ => rfl, ?_, ?_⟩
  · dsimp only
    rw [offset_mod_mul]
    omega
  · intro w' hge hlt
    dsimp only at hge hlt
    omega
  · intro t
    dsimp only
    rw [offset_mod_mul, Nat.testBit_and, Nat.testBit_two_pow_sub_one]
    by_cases ht : t < offset * B % 32
    · rw [packBitSpec_out _ _ _ _ _ _ (Or.inl (by omega)), bufBit_word _ _ _ (by omega)]
      simp [ht, Bool.and_comm]
    · simp [ht]

/-- The specialized pack state machine realizes the bit-level pack
specification on every buffer word. -/
theorem packSM_spec (B offset n : Nat) (vin buf : Nat → Nat)
    (h1 : 1 ≤ B) (h2 : B ≤ 32) (hbuf : ∀ w, buf w < 2 ^ 32)
    (hvin : ∀ j, j < n → vin j < 2 ^ B) (hn : 1 ≤ n) (hov : n + offset % 32 < 2 ^ 32) :
    ∀ w', packWordSpec B offset n vin buf w' (__PackedArray_pack B buf offset vin n w') := by
  have hinit := packSMInv_start B offset n vin buf hbuf
  have hoffle : offset % 32 < 32 := by omega
  have hmodmul := offset_mod_mul offset B
  unfold __PackedArray_pack
  dsimp only
  by_cases hbulk : 32 - offset % 32 ≤ n
  · rw [if_pos hbulk, Nat.mod_eq_of_lt hov]
    have hK1 : 1 ≤ (n + offset % 32) / 32 := by omega
    have hKle : 32 * ((n + offset % 32) / 32) ≤ n + offset % 32 := by omega
    have hKgt : n + offset % 32 < 32 * ((n + offset % 32) / 32) + 32 := by omega
    have hs1 := packCases_inv h1 h2 hbuf hvin (32 - offset % 32) (offset % 32) 0
      (by omega) (by omega) _ hinit
    have hs1' := packSMInv_wrap hs1
    have hs2 := packCycles_inv h1 h2 hbuf hvin ((n + offset % 32) / 32 - 1)
      (0 + (32 - offset % 32)) (by omega) _ hs1'
    have hj2 : 0 + (32 - offset % 32) + 32 * ((n + offset % 32) / 32 - 1) =
        32 * ((n + offset % 32) / 32) - offset % 32 := by omega
    rw [hj2] at hs2
    by_cases hc0 : n - (32 * ((n + offset % 32) / 32) - offset % 32) = 0
    · rw [if_pos hc0]
      have hjn : 32 * ((n + offset % 32) / 32) - offset % 32 = n := by omega
      rw [hjn] at hs2
      exact packSMInv_final_buf hbuf hs2 (by omega)
    · rw [if_neg hc0]
      rw [hs2.hj]
      have hs3 := packCasesBreak_inv h1 h2 hbuf hvin 32
        0 (32 * ((n + offset % 32) / 32) - offset % 32)
        (n - (32 * ((n + offset % 32) / 32) - offset % 32))
        (by omega) (by omega) (by omega) (by omega) _ hs2
      refine packFlushTail_spec h1 h2 hbuf hs3 (by omega) ?_
      have hdist : (n - (32 * ((n + offset % 32) / 32) - offset % 32) +
          32 * ((n + offset % 32) / 32)) * B = (n + offset % 32) * B := by
        rw [show n - (32 * ((n + offset % 32) / 32) - offset % 32) +
          32 * ((n + offset % 32) / 32) = n + offset % 32 by omega]
      rw [Nat.add_mul, Nat.add_mul] at hdist
      have h32 : 32 * ((n + offset % 32) / 32) * B = 32 * (((n + offset % 32) / 32) * B) := by
        ring
      rw [h32] at hdist
      omega
  · rw [if_neg hbulk]
    have hs3 := packCasesBreak_inv h1 h2 hbuf hvin (32 - offset % 32) (offset % 32) 0 n
      (by omega) hn (by omega) (by omega) _ hinit
    refine packFlushTail_spec h1 h2 hbuf hs3 (by omega) ?_
    omega

/-! ### Characterization of the unpack engines -/

theorem specItem_testBit {B : Nat} (h1 : 1 ≤ B) (h2 : B ≤ 32) {buf : Nat → Nat}
    (hbuf : ∀ w, buf w < 2 ^ 32) (p i : Nat) :
    (specItem B buf p).testBit i = (decide (i < B) && bufBit buf (p + i)) := by
  unfold specItem
  by_cases hi : i < B
  · have hi32 : i < 32 := by omega
    rw [Nat.testBit_and, Nat.testBit_two_pow_sub_one, Nat.testBit_or, Nat.testBit_shiftRight,
      testBit_shl32 _ _ _ hi32]
    by_cases hc : p % 32 + i < 32
    · have e : bufBit buf (p + i) = (buf (p / 32)).testBit (p % 32 + i) := by
        unfold bufBit
        have e1 : (p + i) / 32 = p / 32 := by omega
        have e2 : (p + i) % 32 = p % 32 + i := by omega
        rw [e1, e2]
      have hz : ¬ 32 - p % 32 ≤ i := by omega
      simp [hi, hz, e]
    · have e : bufBit buf (p + i) = (buf (p / 32 + 1)).testBit (i - (32 - p % 32)) := by
        unfold bufBit
        have e1 : (p + i) / 32 = p / 32 + 1 := by omega
        have e2 : (p + i) % 32 = i - (32 - p % 32) := by omega
        rw [e1, e2]
      have hz : (buf (p / 32)).testBit (p % 32 + i) = false :=
        testBit_ge_32 (hbuf _) (by omega)
      have hle : 32 - p % 32 ≤ i := by omega
      simp [hi, hz, hle, e]
  · rw [Nat.testBit_and, Nat.testBit_two_pow_sub_one]
    simp [hi]

theorem item_fits_eq {B : Nat} (h1 : 1 ≤ B) (h2 : B ≤ 32) {buf : Nat → Nat}
    (hbuf : ∀ w, buf w < 2 ^ 32) (w sb : Nat) (hsb : sb + B ≤ 32) :
    (buf w >>> sb) &&& mask32 B = specItem B buf (32 * w + sb) := by
  apply Nat.eq_of_testBit_eq
  intro i
  rw [specItem_testBit h1 h2 hbuf, Nat.testBit_and, Nat.testBit_shiftRight,
    mask32_eq h1 h2, Nat.testBit_two_pow_sub_one]
  by_cases hi : i < B
  · have e : bufBit buf (32 * w + sb + i) = (buf w).testBit (sb + i) := by
      unfold bufBit
      have e1 : (32 * w + sb + i) / 32 = w := by omega
      have e2 : (32 * w + sb + i) % 32 = sb + i := by omega
      rw [e1, e2]
    simp [hi, e]
  · simp [hi]

theorem item_straddle_eq {B : Nat} (h1 : 1 ≤ B) (h2 : B ≤ 32) {buf : Nat → Nat}
    (hbuf : ∀ w, buf w < 2 ^ 32) (w sb : Nat) (hsb : sb < 32) (hstr : 32 < sb + B) :
    (buf w >>> sb) ^^^ (((buf w >>> sb) ^^^ shl32 (buf (w + 1)) (32 - sb)) &&&
      shl32 (mask32 B >>> (32 - sb)) (32 - sb)) = specItem B buf (32 * w + sb) := by
  apply Nat.eq_of_testBit_eq
  intro i
  rw [specItem_testBit h1 h2 hbuf, Nat.testBit_xor, Nat.testBit_and, Nat.testBit_xor]
  have elow : (buf w >>> sb).testBit i = (buf w).testBit (sb + i) := Nat.testBit_shiftRight _
  by_cases hi32 : i < 32
  · rw [elow, testBit_shl32 _ _ _ hi32, testBit_shl32 _ _ _ hi32]
    by_cases hav : 32 - sb ≤ i
    · rw [Nat.testBit_shiftRight, mask32_eq h1 h2,
        show 32 - sb + (i - (32 - sb)) = i by omega, Nat.testBit_two_pow_sub_one]
      have ep : bufBit buf (32 * w + sb + i) = (buf (w + 1)).testBit (i - (32 - sb)) := by
        unfold bufBit
        have e1 : (32 * w + sb + i) / 32 = w + 1 := by omega
        have e2 : (32 * w + sb + i) % 32 = i - (32 - sb) := by omega
        rw [e1, e2]
      by_cases hi : i < B
      · have hz : (buf w).testBit (sb + i) = false := testBit_ge_32 (hbuf _) (by omega)
        simp [hi, hav, hz, ep]
      · have hz : (buf w).testBit (sb + i) = false := testBit_ge_32 (hbuf _) (by omega)
        simp [hi, hav, hz]
    · have hiB : i < B := by omega
      have ep : bufBit buf (32 * w + sb + i) = (buf w).testBit (sb + i) := by
        unfold bufBit
        have e1 : (32 * w + sb + i) / 32 = w := by omega
        have e2 : (32 * w + sb + i) % 32 = sb + i := by omega
        rw [e1, e2]
      simp [hav, hiB, ep]
  · have hz : (buf w).testBit (sb + i) = false := testBit_ge_32 (hbuf _) (by omega)
    have hz2 : (shl32 (buf (w + 1)) (32 - sb)).testBit i = false :=
      testBit_ge_32 (shl32_lt _ _) (by omega)
    have hz3 : (shl32 (mask32 B >>> (32 - sb)) (32 - sb)).testBit i = false :=
      testBit_ge_32 (shl32_lt _ _) (by omega)
    simp [elow, hz, hz2, hz3, show ¬ i < B by omega]

theorem item_straddle_or_eq {B : Nat} (h1 : 1 ≤ B) (h2 : B ≤ 32) {buf : Nat → Nat}
    (hbuf : ∀ w, buf w < 2 ^ 32) (w sb : Nat) (hsb : sb < 32) (hstr : 32 < sb + B) :
    ((buf w >>> sb) ||| shl32 (buf (w + 1)) (32 - sb)) &&& mask32 B =
      specItem B buf (32 * w + sb) := by
  apply Nat.eq_of_testBit_eq
  intro i
  rw [specItem_testBit h1 h2 hbuf, Nat.testBit_and, Nat.testBit_or, Nat.testBit_shiftRight,
    mask32_eq h1 h2, Nat.testBit_two_pow_sub_one]
  by_cases hi : i < B
  · have hi32 : i < 32 := by omega
    rw [testBit_shl32 _ _ _ hi32]
    by_cases hav : 32 - sb ≤ i
    · have ep : bufBit buf (32 * w + sb + i) = (buf (w + 1)).testBit (i - (32 - sb)) := by
        unfold bufBit
        have e1 : (32 * w + sb + i) / 32 = w + 1 := by omega
        have e2 : (32 * w + sb + i) % 32 = i - (32 - sb) := by omega
        rw [e1, e2]
      have hz : (buf w).testBit (sb + i) = false := testBit_ge_32 (hbuf _) (by omega)
      simp [hi, hav, hz, ep]
    · have ep : bufBit buf (32 * w + sb + i) = (buf w).testBit (sb + i) := by
        unfold bufBit
        have e1 : (32 * w + sb + i) / 32 = w := by omega
        have e2 : (32 * w + sb + i) % 32 = sb + i := by omega
        rw [e1, e2]
      simp [hi, hav, ep]
  · simp [hi]

theorem specItem_range_split (B : Nat) (buf : Nat → Nat) (base a b : Nat) :
    (List.range (a + b)).map (fun t => specItem B buf (base + t * B)) =
      (List.range a).map (fun t => specItem B buf (base + t * B)) ++
      (List.range b).map (fun t => specItem B buf (base + a * B + t * B)) := by
  rw [List.range_add, List.map_append, List.map_map]
  rw [show ((fun t => specItem B buf (base + t * B)) ∘ fun x => a + x) =
      (fun t => specItem B buf (base + a * B + t * B)) from funext fun t => by
    simp only [Function.comp_apply]
    congr 1
    have e : (a + t) * B = a * B + t * B := by ring
    omega]

theorem unpackLoop_spec (B : Nat) (buf : Nat → Nat) (h1 : 1 ≤ B) (h2 : B ≤ 32)
    (hbuf : ∀ w, buf w < 2 ^ 32) :
    ∀ r w sb, sb ≤ 32 →
      unpackLoop B buf r w sb (32 - sb) (buf w) =
        (List.range r).map (fun t => specItem B buf (32 * w + sb + t * B)) := by
  intro r
  induction r with
  | zero => intro w sb _; rfl
  | succ r ih =>
    intro w sb hsb
    rw [List.range_succ_eq_map, List.map_cons, List.map_map]
    simp only [unpackLoop]
    by_cases hfits : B ≤ 32 - sb
    · rw [if_pos hfits]
      congr 1
      · rw [item_fits_eq h1 h2 hbuf w sb (by omega)]
        congr 1
        omega
      · rw [show 32 - sb - B = 32 - (sb + B) by omega, ih w (sb + B) (by omega)]
        rw [show ((fun t => specItem B buf (32 * w + sb + t * B)) ∘ Nat.succ) =
            (fun t => specItem B buf (32 * w + (sb + B) + t * B)) from funext fun t => by
          simp only [Function.comp_apply, Nat.succ_eq_add_one]
          congr 1
          have e : (t + 1) * B = t * B + B := by ring
          omega]
    · rw [if_neg hfits]
      by_cases hz : 32 - sb = 0
      · rw [if_pos hz]
        have hsb32 : sb = 32 := by omega
        congr 1
        · rw [show buf (w + 1) &&& mask32 B = (buf (w + 1) >>> 0) &&& mask32 B by
            rw [Nat.shiftRight_zero]]
          rw [item_fits_eq h1 h2 hbuf (w + 1) 0 (by omega)]
          congr 1
          omega
        · rw [ih (w + 1) B (by omega)]
          rw [show ((fun t => specItem B buf (32 * w + sb + t * B)) ∘ Nat.succ) =
              (fun t => specItem B buf (32 * (w + 1) + B + t * B)) from funext fun t => by
            simp only [Function.comp_apply, Nat.succ_eq_add_one]
            congr 1
            have e : (t + 1) * B = t * B + B := by ring
            omega]
      · rw [if_neg hz]
        congr 1
        · rw [item_straddle_eq h1 h2 hbuf w sb (by omega) (by omega)]
          congr 1
          omega
        · rw [ih (w + 1) ((sb + B) % 32) (by omega)]
          rw [show ((fun t => specItem B buf (32 * w + sb + t * B)) ∘ Nat.succ) =
              (fun t => specItem B buf (32 * (w + 1) + (sb + B) % 32 + t * B)) from
              funext fun t => by
            simp only [Function.comp_apply, Nat.succ_eq_add_one]
            congr 1
            have e : (t + 1) * B = t * B + B := by ring
            omega]

/-- The generic unpack engine returns exactly the items of the buffer. -/
theorem unpackList_spec (B : Nat) (buf : Nat → Nat) (offset n : Nat)
    (h1 : 1 ≤ B) (h2 : B ≤ 32) (hbuf : ∀ w, buf w < 2 ^ 32) :
    unpackList B buf offset n =
      (List.range n).map (fun k => specItem B buf (offset * B + k * B)) := by
  unfold unpackList
  rw [unpackLoop_spec B buf h1 h2 hbuf n (offset * B / 32) (offset * B % 32) (by omega)]
  congr 1
  funext t
  congr 1
  omega

theorem unpackCase_step (B : Nat) (buf : Nat → Nat) (h1 : 1 ≤ B) (h2 : B ≤ 32)
    (hbuf : ∀ w, buf w < 2 ^ 32) (i : Nat) (hi : i < 31) (s : UnpackSM)
    (hp : s.packed = buf s.w) :
    (unpackCase B buf i s).out = s.out ++ [specItem B buf (32 * s.w + i * B % 32)] ∧
    (unpackCase B buf i s).packed = buf ((unpackCase B buf i s).w) ∧
    32 * (unpackCase B buf i s).w + (i + 1) * B % 32 = 32 * s.w + i * B % 32 + B := by
  have hsb : i * B % 32 < 32 := by omega
  have e1 : (i + 1) * B = i * B + B := by ring
  have e2 : (i + 1) * B % 32 = (i * B % 32 + B) % 32 := by rw [e1]; omega
  unfold unpackCase
  dsimp only
  by_cases hfits : B ≤ 32 - i * B % 32
  · rw [if_pos hfits, hp, item_fits_eq h1 h2 hbuf s.w (i * B % 32) (by omega)]
    by_cases hex : B = 32 - i * B % 32
    · rw [if_pos ⟨hi, hex⟩]
      refine ⟨rfl, rfl, ?_⟩
      dsimp only
      omega
    · rw [if_neg (by rintro ⟨_, h⟩; exact hex h)]
      refine ⟨rfl, rfl, ?_⟩
      dsimp only
      omega
  · rw [if_neg hfits, hp, item_straddle_or_eq h1 h2 hbuf s.w (i * B % 32) (by omega)
      (by omega)]
    refine ⟨rfl, rfl, ?_⟩
    dsimp only
    omega

theorem unpackCases_run (B : Nat) (buf : Nat → Nat) (h1 : 1 ≤ B) (h2 : B ≤ 32)
    (hbuf : ∀ w, buf w < 2 ^ 32) :
    ∀ k i, i + k = 32 → ∀ s : UnpackSM, s.packed = buf s.w →
      (unpackCases B buf (List.range' i k) s).out =
        s.out ++ (List.range k).map
          (fun t => specItem B buf (32 * s.w + i * B % 32 + t * B)) ∧
      (1 ≤ k →
        32 * ((unpackCases B buf (List.range' i k) s).w + 1) =
          32 * s.w + i * B % 32 + k * B) := by
  intro k
  induction k with
  | zero =>
    intro i _ s _
    exact ⟨by simp [unpackCases], fun h => absurd h (by decide)⟩
  | succ k ih =>
    intro i hik s hp
    have hi : i < 32 := by omega
    have hsb : i * B % 32 < 32 := by omega
    rw [List.range'_succ]
    have estep : unpackCases B buf (i :: List.range' (i + 1) k) s =
        unpackCases B buf (List.range' (i + 1) k) (unpackCase B buf i s) := by
      simp [unpackCases]
    rw [estep]
    by_cases hk0 : k = 0
    · subst hk0
      have hi31 : i = 31 := by omega
      subst hi31
      have hb31 : 31 * B % 32 + B = 32 := by omega
      have ecase : unpackCases B buf (List.range' 32 0) (unpackCase B buf 31 s) =
          unpackCase B buf 31 s := by
        simp [unpackCases]
      rw [ecase]
      have hout : (unpackCase B buf 31 s).out =
          s.out ++ [specItem B buf (32 * s.w + 31 * B % 32)] ∧
          (unpackCase B buf 31 s).w = s.w := by
        unfold unpackCase
        dsimp only
        rw [if_pos (by omega), if_neg (by rintro ⟨h31, _⟩; exact absurd h31 (by decide))]
        rw [hp, item_fits_eq h1 h2 hbuf s.w (31 * B % 32) (by omega)]
        exact ⟨rfl, rfl⟩
      refine ⟨?_, fun _ => by rw [hout.2]; omega⟩
      rw [hout.1]
      congr 1
      rw [show List.range 1 = [0] from rfl, List.map_cons, List.map_nil]
      congr 2
      omega
    · have hstep := unpackCase_step B buf h1 h2 hbuf i (by omega) s hp
      have hrec := ih (i + 1) (by omega) (unpackCase B buf i s) hstep.2.1
      refine ⟨?_, fun _ => ?_⟩
      · rw [hrec.1, hstep.1, List.append_assoc]
        congr 1
        rw [List.range_succ_eq_map, List.map_cons, List.map_map, List.singleton_append]
        congr 1
        · congr 1
          omega
        · rw [show ((fun t => specItem B buf (32 * s.w + i * B % 32 + t * B)) ∘ Nat.succ) =
              (fun t => specItem B buf
                (32 * (unpackCase B buf i s).w + (i + 1) * B % 32 + t * B)) from
              funext fun t => by
            simp only [Function.comp_apply, Nat.succ_eq_add_one]
            congr 1
            have e : (t + 1) * B = t * B + B := by ring
            have := hstep.2.2
            omega]
      · have hend := hrec.2 (by omega)
        have := hstep.2.2
        have e : (k + 1) * B = k * B + B := by ring
        omega

theorem unpackCycles_run (B : Nat) (buf : Nat → Nat) (h1 : 1 ≤ B) (h2 : B ≤ 32)
    (hbuf : ∀ w, buf w < 2 ^ 32) :
    ∀ r s,
      (unpackCycles B buf r s).out = s.out ++ (List.range (32 * r)).map
        (fun t => specItem B buf (32 * (s.w + 1) + t * B)) ∧
      32 * ((unpackCycles B buf r s).w + 1) = 32 * (s.w + 1) + 32 * r * B := by
  intro r
  induction r with
  | zero => intro s; exact ⟨by simp [unpackCycles], by simp [unpackCycles]⟩
  | succ r ih =>
    intro s
    have hadv : ({ s with w := s.w + 1, packed := buf (s.w + 1) } : UnpackSM).packed =
        buf ({ s with w := s.w + 1, packed := buf (s.w + 1) } : UnpackSM).w := rfl
    have hw : ({ s with w := s.w + 1, packed := buf (s.w + 1) } : UnpackSM).w = s.w + 1 := rfl
    have hrun := unpackCases_run B buf h1 h2 hbuf 32 0 (by omega)
      { s with w := s.w + 1, packed := buf (s.w + 1) } hadv
    have hrec := ih (unpackCases B buf (List.range' 0 32)
      { s with w := s.w + 1, packed := buf (s.w + 1) })
    constructor
    · rw [show unpackCycles B buf (r + 1) s = unpackCycles B buf r
          (unpackCases B buf (List.range' 0 32)
            { s with w := s.w + 1, packed := buf (s.w + 1) }) from rfl]
      rw [hrec.1, hrun.1]
      dsimp only
      rw [List.append_assoc]
      congr 1
      rw [show 32 * (r + 1) = 32 + 32 * r by ring,
        specItem_range_split B buf (32 * (s.w + 1)) 32 (32 * r)]
      congr 1
      · congr 1
        funext t
        congr 1
        omega
      · rw [hrun.2 (by decide)]
        congr 1
        funext t
        congr 1
        have e : (32 : Nat) * B = 32 * B := rfl
        omega
    · rw [show unpackCycles B buf (r + 1) s = unpackCycles B buf r
          (unpackCases B buf (List.range' 0 32)
            { s with w := s.w + 1, packed := buf (s.w + 1) }) from rfl]
      rw [hrec.2, hrun.2 (by decide)]
      dsimp only
      have e : 32 * (r + 1) * B = 32 * B + 32 * r * B := by ring
      omega

theorem unpackCasesBreak_run (B : Nat) (buf : Nat → Nat) (h1 : 1 ≤ B) (h2 : B ≤ 32)
    (hbuf : ∀ w, buf w < 2 ^ 32) :
    ∀ k i m, i + k = 32 → 1 ≤ m → m ≤ k → ∀ s : UnpackSM, s.packed = buf s.w →
      ∀ stop, stop = s.out.length + m →
      (unpackCasesBreak B buf stop (List.range' i k) s).out =
        s.out ++ (List.range m).map
          (fun t => specItem B buf (32 * s.w + i * B % 32 + t * B)) := by
  intro k
  induction k with
  | zero => intro i m _ hm1 hm2; omega
  | succ k ih =>
    intro i m hik hm1 hm2 s hp stop hstop
    have hi : i < 32 := by omega
    have hsb : i * B % 32 < 32 := by omega
    have e1 : (i + 1) * B = i * B + B := by ring
    have e2 : (i + 1) * B % 32 = (i * B % 32 + B) % 32 := by rw [e1]; omega
    obtain ⟨m', rfl⟩ : ∃ m', m = m' + 1 := ⟨m - 1, by omega⟩
    have hlen1 : (s.out ++ [specItem B buf (32 * s.w + i * B % 32)]).length =
        s.out.length + 1 := by simp
    rw [List.range'_succ]
    simp only [unpackCasesBreak]
    rw [List.range_succ_eq_map, List.map_cons, List.map_map]
    by_cases hfits : B ≤ 32 - i * B % 32
    · rw [if_pos hfits, hp, item_fits_eq h1 h2 hbuf s.w (i * B % 32) (by omega)]
      by_cases hm0 : m' = 0
      · subst hm0
        rw [if_pos (by rw [hlen1, hstop])]
        dsimp only
        simp only [List.range_zero, List.map_nil]
        rw [show 32 * s.w + i * B % 32 + 0 * B = 32 * s.w + i * B % 32 by omega]
      · rw [if_neg (by rw [hlen1, hstop]; omega)]
        by_cases hcond : i < 31 ∧ B = 32 - i * B % 32
        · rw [if_pos hcond]
          have hrec := ih (i + 1) m' (by omega) (by omega) (by omega)
            { w := s.w + 1, packed := buf (s.w + 1),
              out := s.out ++ [specItem B buf (32 * s.w + i * B % 32)] } rfl stop
            (by dsimp only; rw [hlen1, hstop]; omega)
          rw [hrec]
          dsimp only
          rw [List.append_assoc, List.singleton_append]
          congr 2
          · congr 1
            omega
          · rw [show ((fun t => specItem B buf (32 * s.w + i * B % 32 + t * B)) ∘ Nat.succ) =
                (fun t => specItem B buf (32 * (s.w + 1) + (i + 1) * B % 32 + t * B)) from
                funext fun t => by
              simp only [Function.comp_apply, Nat.succ_eq_add_one]
              congr 1
              have e : (t + 1) * B = t * B + B := by ring
              omega]
        · rw [if_neg hcond]
          have hi31 : i < 31 := by omega
          have hlt : i * B % 32 + B < 32 := by
            rcases Nat.lt_or_ge (i * B % 32 + B) 32 with h | h
            · exact h
            · exact absurd (by omega : B = 32 - i * B % 32) (fun hb => hcond ⟨hi31, hb⟩)
          have hrec := ih (i + 1) m' (by omega) (by omega) (by omega)
            { w := s.w, packed := buf s.w,
              out := s.out ++ [specItem B buf (32 * s.w + i * B % 32)] } rfl stop
            (by dsimp only; rw [hlen1, hstop]; omega)
          rw [hrec]
          dsimp only
          rw [List.append_assoc, List.singleton_append]
          congr 2
          · congr 1
            omega
          · rw [show ((fun t => specItem B buf (32 * s.w + i * B % 32 + t * B)) ∘ Nat.succ) =
                (fun t => specItem B buf (32 * s.w + (i + 1) * B % 32 + t * B)) from
                funext fun t => by
              simp only [Function.comp_apply, Nat.succ_eq_add_one]
              congr 1
              have e : (t + 1) * B = t * B + B := by ring
              omega]
    · rw [if_neg hfits, hp, item_straddle_or_eq h1 h2 hbuf s.w (i * B % 32) (by omega)
        (by omega)]
      by_cases hm0 : m' = 0
      · subst hm0
        rw [if_pos (by rw [hlen1, hstop])]
        dsimp only
        simp only [List.range_zero, List.map_nil]
        rw [show 32 * s.w + i * B % 32 + 0 * B = 32 * s.w + i * B % 32 by omega]
      · rw [if_neg (by rw [hlen1, hstop]; omega)]
        have hrec := ih (i + 1) m' (by omega) (by omega) (by omega)
          { w := s.w + 1, packed := buf (s.w + 1),
            out := s.out ++ [specItem B buf (32 * s.w + i * B % 32)] } rfl stop
          (by dsimp only; rw [hlen1, hstop]; omega)
        rw [hrec]
        dsimp only
        rw [List.append_assoc, List.singleton_append]
        congr 2
        · congr 1
          omega
        · rw [show ((fun t => specItem B buf (32 * s.w + i * B % 32 + t * B)) ∘ Nat.succ) =
              (fun t => specItem B buf (32 * (s.w + 1) + (i + 1) * B % 32 + t * B)) from
              funext fun t => by
            simp only [Function.comp_apply, Nat.succ_eq_add_one]
            congr 1
            have e : (t + 1) * B = t * B + B := by ring
            omega]

theorem specItem_map_congr (B : Nat) (buf : Nat → Nat) (c d m : Nat) (h : c = d) :
    (List.range m).map (fun t => specItem B buf (c + t * B)) =
      (List.range m).map (fun t => specItem B buf (d + t * B)) := by
  rw [h]

/-- The specialized unpack state machine returns exactly the items of the buffer. -/
theorem unpackSM_spec (B : Nat) (buf : Nat → Nat) (offset n : Nat)
    (h1 : 1 ≤ B) (h2 : B ≤ 32) (hbuf : ∀ w, buf w < 2 ^ 32) (hn : 1 ≤ n)
    (hov : n + offset % 32 < 2 ^ 32) :
    __PackedArray_unpack B buf offset n =
      (List.range n).map (fun k => specItem B buf (offset * B + k * B)) := by
  have hoffle : offset % 32 < 32 := by omega
  have hmod := offset_mod_mul offset B
  unfold __PackedArray_unpack
  dsimp only
  have hg : ({ w := offset * B / 32, packed := buf (offset * B / 32), out := [] } :
      UnpackSM).w = offset * B / 32 := rfl
  by_cases hbulk : 32 - offset % 32 ≤ n
  · rw [if_pos hbulk, Nat.mod_eq_of_lt hov]
    have hK1 : 1 ≤ (n + offset % 32) / 32 := by omega
    have hKle : 32 * ((n + offset % 32) / 32) ≤ n + offset % 32 := by omega
    have hKgt : n + offset % 32 < 32 * ((n + offset % 32) / 32) + 32 := by omega
    have hrun := unpackCases_run B buf h1 h2 hbuf (32 - offset % 32) (offset % 32)
      (by omega) ⟨offset * B / 32, buf (offset * B / 32), []⟩ rfl
    have hend1 := hrun.2 (by omega)
    have hcyc := unpackCycles_run B buf h1 h2 hbuf ((n + offset % 32) / 32 - 1)
      (unpackCases B buf (List.range' (offset % 32) (32 - offset % 32))
        ⟨offset * B / 32, buf (offset * B / 32), []⟩)
    by_cases hc0 : n - (32 * ((n + offset % 32) / 32) - offset % 32) = 0
    · rw [if_pos hc0]
      rw [hcyc.1, hrun.1]
      dsimp only
      rw [List.nil_append]
      conv_rhs => rw [show n = 32 - offset % 32 + 32 * ((n + offset % 32) / 32 - 1)
        by omega]
      rw [specItem_range_split]
      congr 1
      · apply specItem_map_congr
        omega
      · apply specItem_map_congr
        omega
    · rw [if_neg hc0]
      have hend2 := hcyc.2
      have hbrk := unpackCasesBreak_run B buf h1 h2 hbuf 32 0
        (n - (32 * ((n + offset % 32) / 32) - offset % 32)) (by omega) (by omega) (by omega)
        ⟨(unpackCycles B buf ((n + offset % 32) / 32 - 1)
            (unpackCases B buf (List.range' (offset % 32) (32 - offset % 32))
              ⟨offset * B / 32, buf (offset * B / 32), []⟩)).w + 1,
          buf ((unpackCycles B buf ((n + offset % 32) / 32 - 1)
            (unpackCases B buf (List.range' (offset % 32) (32 - offset % 32))
              ⟨offset * B / 32, buf (offset * B / 32), []⟩)).w + 1),
          (unpackCycles B buf ((n + offset % 32) / 32 - 1)
            (unpackCases B buf (List.range' (offset % 32) (32 - offset % 32))
              ⟨offset * B / 32, buf (offset * B / 32), []⟩)).out⟩ rfl
        ((unpackCycles B buf ((n + offset % 32) / 32 - 1)
            (unpackCases B buf (List.range' (offset % 32) (32 - offset % 32))
              ⟨offset * B / 32, buf (offset * B / 32), []⟩)).out.length +
          (n - (32 * ((n + offset % 32) / 32) - offset % 32))) rfl
      rw [hbrk]
      dsimp only
      rw [hcyc.1, hrun.1]
      dsimp only
      rw [List.nil_append, List.append_assoc]
      conv_rhs => rw [show n = 32 - offset % 32 + (32 * ((n + offset % 32) / 32 - 1) +
        (n - (32 * ((n + offset % 32) / 32) - offset % 32))) by omega]
      rw [specItem_range_split]
      congr 1
      · apply specItem_map_congr
        omega
      · rw [specItem_range_split]
        congr 1
        · apply specItem_map_congr
          omega
        · apply specItem_map_congr
          omega
  · rw [if_neg hbulk]
    have hbrk := unpackCasesBreak_run B buf h1 h2 hbuf (32 - offset % 32) (offset % 32) n
      (by omega) hn (by omega) ⟨offset * B / 32, buf (offset * B / 32), []⟩ rfl n (by simp)
    rw [hbrk]
    dsimp only
    rw [List.nil_append]
    apply specItem_map_congr
    omega

/-- C1: for every width 1..32, every starting buffer of 32-bit words, every
in-range input stream, every offset and every count at least 1 (with the
count/offset bookkeeping inside 32-bit range), the specialized per-width pack
dispatched by `PackedArray_pack` produces buffer contents word-for-word
identical to the generic cursor-loop engine `PackedArray_pack_reference`, and
the specialized unpack produces the same output values as the generic engine
`PackedArray_unpack_reference`. -/
theorem specialized_matches_generic (a : PackedArray) (offset n : Nat) (vin : Nat → Nat)
    (h1 : 1 ≤ a.bitsPerItem) (h2 : a.bitsPerItem ≤ 32)
    (hbuf : ∀ w, a.buffer w < 2 ^ 32)
    (hvin : ∀ j, j < n → vin j < 2 ^ a.bitsPerItem)
    (hn : 1 ≤ n) (hov : n + offset % 32 < 2 ^ 32) :
    (∀ w', (PackedArray_pack a offset vin n).buffer w' =
      (PackedArray_pack_reference a offset vin n).buffer w') ∧
    PackedArray_unpack a offset n = PackedArray_unpack_reference a offset n := by
  constructor
  · intro w'
    rw [PackedArray_pack, if_pos ⟨h1, h2⟩]
    rw [PackedArray_pack_reference]
    exact packWordSpec_unique
      (packSM_spec a.bitsPerItem offset n vin a.buffer h1 h2 hbuf hvin hn hov w')
      (packBuffer_spec a.bitsPerItem offset n vin a.buffer h1 h2 hbuf hvin w')
  · rw [PackedArray_unpack, if_pos ⟨h1, h2⟩]
    rw [PackedArray_unpack_reference]
    rw [unpackSM_spec a.bitsPerItem a.buffer offset n h1 h2 hbuf hn hov]
    rw [unpackList_spec a.bitsPerItem a.buffer offset n h1 h2 hbuf]

theorem specialized_matches_generic_witness :
    (∀ w', (PackedArray_pack ⟨3, 40, buf0⟩ 5 (fun j => j % 8) 20).buffer w' =
      (PackedArray_pack_reference ⟨3, 40, buf0⟩ 5 (fun j => j % 8) 20).buffer w') ∧
    PackedArray_unpack ⟨3, 40, buf0⟩ 5 20 =
      PackedArray_unpack_reference ⟨3, 40, buf0⟩ 5 20 :=
  specialized_matches_generic ⟨3, 40, buf0⟩ 5 20 (fun j => j % 8)
    (by decide) (by decide) (fun _ => Nat.two_pow_pos 32)
    (fun j _ => Nat.lt_of_lt_of_le (Nat.mod_lt j (by decide)) (by decide))
    (by decide) (by decide)

theorem bufBit_packed {B offset n : Nat} {vin buf pbuf : Nat → Nat}
    (hspec : ∀ w', packWordSpec B offset n vin buf w' (pbuf w')) (p : Nat) :
    bufBit pbuf p = packBitSpec B offset n vin buf p := by
  unfold bufBit
  rw [hspec (p / 32) (p % 32)]
  have e : 32 * (p / 32) + p % 32 = p := by omega
  rw [e]
  simp [Nat.mod_lt]

theorem specItem_of_packed {B offset n : Nat} {vin buf pbuf : Nat → Nat}
    (h1 : 1 ≤ B) (h2 : B ≤ 32)
    (hspec : ∀ w', packWordSpec B offset n vin buf w' (pbuf w'))
    (hvin : ∀ j, j < n → vin j < 2 ^ B) (k : Nat) (hk : k < n) :
    specItem B pbuf (offset * B + k * B) = vin k := by
  have hbuf2 : ∀ w, pbuf w < 2 ^ 32 := fun w => packWordSpec_lt (hspec w)
  apply Nat.eq_of_testBit_eq
  intro i
  rw [specItem_testBit h1 h2 hbuf2]
  by_cases hi : i < B
  · rw [decide_eq_true hi, Bool.true_and, bufBit_packed hspec,
      packBitSpec_in B offset n vin buf k i h1 hk hi]
  · rw [decide_eq_false hi, Bool.false_and]
    exact (Nat.testBit_lt_two_pow (Nat.lt_of_lt_of_le (hvin k hk)
      (Nat.pow_le_pow_right (by omega) (by omega)))).symm

/-- C2 (corrected, count at least 1): for every width 1..32, packing `n` values
each representable in `bitsPerItem` bits at offset `offset` and then unpacking
`n` items from the same offset returns exactly the packed values. The original
claim, which allowed `count = 0`, fails on the specialized path: see the
counterexample. -/
theorem pack_unpack_roundtrip (a : PackedArray) (offset n : Nat) (vin : Nat → Nat)
    (h1 : 1 ≤ a.bitsPerItem) (h2 : a.bitsPerItem ≤ 32)
    (hbuf : ∀ w, a.buffer w < 2 ^ 32)
    (hvin : ∀ j, j < n → vin j < 2 ^ a.bitsPerItem)
    (hn : 1 ≤ n) (hov : n + offset % 32 < 2 ^ 32) :
    PackedArray_unpack (PackedArray_pack a offset vin n) offset n =
      (List.range n).map vin := by
  rw [PackedArray_pack, if_pos ⟨h1, h2⟩]
  have hspec := packSM_spec a.bitsPerItem offset n vin a.buffer h1 h2 hbuf hvin hn hov
  have hbuf2 : ∀ w, __PackedArray_pack a.bitsPerItem a.buffer offset vin n w < 2 ^ 32 :=
    fun w => packWordSpec_lt (hspec w)
  rw [PackedArray_unpack]
  dsimp only
  rw [if_pos ⟨h1, h2⟩]
  rw [unpackSM_spec a.bitsPerItem _ offset n h1 h2 hbuf2 hn hov]
  apply List.map_congr_left
  intro k hk
  rw [List.mem_range] at hk
  exact specItem_of_packed h1 h2 hspec hvin k hk

/-- C2 (counterexample to the claim as stated, at count = 0): on the
specialized path a pack/unpack round trip of zero items does not return the
empty list — the epilogue's break check runs only after an item has already
been processed. -/
theorem roundtrip_fails_at_count_zero :
    PackedArray_unpack (PackedArray_pack ⟨1, 32, buf0⟩ 0 (fun _ => 0) 0) 0 0 ≠
      (List.range 0).map (fun _ => (0 : Nat)) := by decide

theorem pack_unpack_roundtrip_witness :
    PackedArray_unpack (PackedArray_pack ⟨5, 20, buf0⟩ 3 (fun j => (j * 7) % 32) 10) 3 10 =
      (List.range 10).map (fun j => (j * 7) % 32) :=
  pack_unpack_roundtrip ⟨5, 20, buf0⟩ 3 10 (fun j => (j * 7) % 32)
    (by decide) (by decide) (fun _ => Nat.two_pow_pos 32)
    (fun j _ => Nat.mod_lt _ (by decide)) (by decide) (by decide)

theorem packLoop_one (B : Nat) (vin : Nat → Nat) (j : Nat) (s : PackCursor) :
    packLoop B vin j 1 s = packStep B (vin j) s := rfl

theorem set_buffer_eq_pack1 (a : PackedArray) (offset v : Nat) :
    (PackedArray_set a offset v).buffer =
      packBuffer a.bitsPerItem a.buffer offset (fun _ => v) 1 := by
  unfold packBuffer
  dsimp only
  rw [packLoop_one]
  unfold packStep PackedArray_set
  dsimp only
  by_cases hfits : a.bitsPerItem ≤ 32 - offset * a.bitsPerItem % 32
  · rw [if_pos hfits, if_pos hfits]
  · rw [if_neg hfits, if_neg hfits,
      if_neg (show ¬(32 - offset * a.bitsPerItem % 32 = 0) by omega)]

theorem set_bitsPerItem (a : PackedArray) (offset v : Nat) :
    (PackedArray_set a offset v).bitsPerItem = a.bitsPerItem := by
  unfold PackedArray_set
  dsimp only
  by_cases hfits : a.bitsPerItem ≤ 32 - offset * a.bitsPerItem % 32
  · rw [if_pos hfits]
  · rw [if_neg hfits]

theorem set_count (a : PackedArray) (offset v : Nat) :
    (PackedArray_set a offset v).count = a.count := by
  unfold PackedArray_set
  dsimp only
  by_cases hfits : a.bitsPerItem ≤ 32 - offset * a.bitsPerItem % 32
  · rw [if_pos hfits]
  · rw [if_neg hfits]

theorem pack_dispatch (a : PackedArray) (offset n : Nat) (vin : Nat → Nat)
    (h1 : 1 ≤ a.bitsPerItem) (h2 : a.bitsPerItem ≤ 32) :
    PackedArray_pack a offset vin n =
      { a with buffer := __PackedArray_pack a.bitsPerItem a.buffer offset vin n } := by
  unfold PackedArray_pack
  rw [if_pos ⟨h1, h2⟩]

theorem set_packWordSpec (a : PackedArray) (offset v : Nat)
    (h1 : 1 ≤ a.bitsPerItem) (h2 : a.bitsPerItem ≤ 32)
    (hbuf : ∀ w, a.buffer w < 2 ^ 32) (hv : v < 2 ^ a.bitsPerItem) :
    ∀ w', packWordSpec a.bitsPerItem offset 1 (fun _ => v) a.buffer w'
      ((PackedArray_set a offset v).buffer w') := by
  rw [set_buffer_eq_pack1]
  exact packBuffer_spec a.bitsPerItem offset 1 (fun _ => v) a.buffer h1 h2 hbuf
    (fun j hj => hv)

theorem bufBit_packed_outside {B offset n : Nat} {vin buf pbuf : Nat → Nat}
    (hspec : ∀ w', packWordSpec B offset n vin buf w' (pbuf w')) (p : Nat)
    (hp : p < offset * B ∨ offset * B + n * B ≤ p) :
    bufBit pbuf p = bufBit buf p := by
  rw [bufBit_packed hspec, packBitSpec_out B offset n vin buf p hp]

theorem specItem_congr_bits {B : Nat} (h1 : 1 ≤ B) (h2 : B ≤ 32)
    {buf1 buf2 : Nat → Nat} (hb1 : ∀ w, buf1 w < 2 ^ 32) (hb2 : ∀ w, buf2 w < 2 ^ 32)
    (p : Nat) (h : ∀ i, i < B → bufBit buf1 (p + i) = bufBit buf2 (p + i)) :
    specItem B buf1 p = specItem B buf2 p := by
  apply Nat.eq_of_testBit_eq
  intro i
  rw [specItem_testBit h1 h2 hb1, specItem_testBit h1 h2 hb2]
  by_cases hi : i < B
  · rw [h i hi]
  · rw [decide_eq_false hi, Bool.false_and, Bool.false_and]

theorem get_eq_specItem (a : PackedArray) (offset : Nat)
    (h1 : 1 ≤ a.bitsPerItem) (h2 : a.bitsPerItem ≤ 32)
    (hbuf : ∀ w, a.buffer w < 2 ^ 32) :
    PackedArray_get a offset =
      specItem a.bitsPerItem a.buffer (offset * a.bitsPerItem) := by
  unfold PackedArray_get
  dsimp only
  have e : 32 * (offset * a.bitsPerItem / 32) + offset * a.bitsPerItem % 32 =
      offset * a.bitsPerItem := by omega
  by_cases hfits : a.bitsPerItem ≤ 32 - offset * a.bitsPerItem % 32
  · rw [if_pos hfits]
    rw [item_fits_eq h1 h2 hbuf (offset * a.bitsPerItem / 32)
      (offset * a.bitsPerItem % 32) (by omega)]
    rw [e]
  · rw [if_neg hfits]
    rw [item_straddle_eq h1 h2 hbuf (offset * a.bitsPerItem / 32)
      (offset * a.bitsPerItem % 32) (by omega) (by omega)]
    rw [e]

theorem specItem_packed_outside {B offset n : Nat} {vin buf pbuf : Nat → Nat}
    (h1 : 1 ≤ B) (h2 : B ≤ 32) (hbuf : ∀ w, buf w < 2 ^ 32)
    (hspec : ∀ w', packWordSpec B offset n vin buf w' (pbuf w'))
    (j : Nat) (hj : j < offset ∨ offset + n ≤ j) :
    specItem B pbuf (j * B) = specItem B buf (j * B) := by
  have hpb : ∀ w, pbuf w < 2 ^ 32 := fun w => packWordSpec_lt (hspec w)
  apply specItem_congr_bits h1 h2 hpb hbuf
  intro i hi
  apply bufBit_packed_outside hspec
  rcases hj with hj | hj
  · left
    have hle : (j + 1) * B ≤ offset * B := Nat.mul_le_mul_right B (by omega)
    have e : (j + 1) * B = j * B + B := by ring
    omega
  · right
    have hle : (offset + n) * B ≤ j * B := Nat.mul_le_mul_right B hj
    have e : (offset + n) * B = offset * B + n * B := by ring
    omega

/-- C3: a single-item write via `set` changes no buffer bit outside the window
of item `offset`, and a pack of `n` items changes no buffer bit outside the
windows of items `offset..offset+n-1`; consequently the decoded value of every
item outside the written range is unchanged, for every width 1..32 and every
starting buffer of 32-bit words. -/
theorem write_preserves_outside (a : PackedArray) (offset n : Nat) (vin : Nat → Nat)
    (v : Nat) (h1 : 1 ≤ a.bitsPerItem) (h2 : a.bitsPerItem ≤ 32)
    (hbuf : ∀ w, a.buffer w < 2 ^ 32)
    (hvin : ∀ j, j < n → vin j < 2 ^ a.bitsPerItem) (hv : v < 2 ^ a.bitsPerItem)
    (hn : 1 ≤ n) (hov : n + offset % 32 < 2 ^ 32) :
    (∀ p, p < offset * a.bitsPerItem ∨ offset * a.bitsPerItem + a.bitsPerItem ≤ p →
      bufBit (PackedArray_set a offset v).buffer p = bufBit a.buffer p) ∧
    (∀ j, j < offset ∨ offset + 1 ≤ j →
      PackedArray_get (PackedArray_set a offset v) j = PackedArray_get a j) ∧
    (∀ p, p < offset * a.bitsPerItem ∨ (offset + n) * a.bitsPerItem ≤ p →
      bufBit (PackedArray_pack a offset vin n).buffer p = bufBit a.buffer p) ∧
    (∀ j, j < offset ∨ offset + n ≤ j →
      PackedArray_get (PackedArray_pack a offset vin n) j = PackedArray_get a j) := by
  have hsetspec := set_packWordSpec a offset v h1 h2 hbuf hv
  have hpackspec := packSM_spec a.bitsPerItem offset n vin a.buffer h1 h2 hbuf hvin hn hov
  have hsetb : ∀ w, (PackedArray_set a offset v).buffer w < 2 ^ 32 :=
    fun w => packWordSpec_lt (hsetspec w)
  have hpackb : ∀ w, __PackedArray_pack a.bitsPerItem a.buffer offset vin n w < 2 ^ 32 :=
    fun w => packWordSpec_lt (hpackspec w)
  refine ⟨?_, ?_, ?_, ?_⟩
  · intro p hp
    apply bufBit_packed_outside hsetspec
    have e : 1 * a.bitsPerItem = a.bitsPerItem := by ring
    omega
  · intro j hj
    have hget := get_eq_specItem (PackedArray_set a offset v) j
      (by rw [set_bitsPerItem]; exact h1) (by rw [set_bitsPerItem]; exact h2) hsetb
    rw [set_bitsPerItem] at hget
    rw [hget, get_eq_specItem a j h1 h2 hbuf]
    exact specItem_packed_outside h1 h2 hbuf hsetspec j hj
  · intro p hp
    rw [pack_dispatch a offset n vin h1 h2]
    dsimp only
    apply bufBit_packed_outside hpackspec
    have e : (offset + n) * a.bitsPerItem = offset * a.bitsPerItem + n * a.bitsPerItem :=
      by ring
    omega
  · intro j hj
    rw [pack_dispatch a offset n vin h1 h2]
    have hget := get_eq_specItem
      ({ a with buffer := __PackedArray_pack a.bitsPerItem a.buffer offset vin n }) j
      h1 h2 hpackb
    rw [hget, get_eq_specItem a j h1 h2 hbuf]
    exact specItem_packed_outside h1 h2 hbuf hpackspec j hj

theorem write_preserves_outside_witness :
    (∀ p, p < 2 * 7 ∨ 2 * 7 + 7 ≤ p →
      bufBit (PackedArray_set ⟨7, 10, buf0⟩ 2 99).buffer p = bufBit buf0 p) ∧
    (∀ j, j < 2 ∨ 2 + 1 ≤ j →
      PackedArray_get (PackedArray_set ⟨7, 10, buf0⟩ 2 99) j =
        PackedArray_get ⟨7, 10, buf0⟩ j) ∧
    (∀ p, p < 2 * 7 ∨ (2 + 3) * 7 ≤ p →
      bufBit (PackedArray_pack ⟨7, 10, buf0⟩ 2 (fun j => j + 1) 3).buffer p =
        bufBit buf0 p) ∧
    (∀ j, j < 2 ∨ 2 + 3 ≤ j →
      PackedArray_get (PackedArray_pack ⟨7, 10, buf0⟩ 2 (fun j => j + 1) 3) j =
        PackedArray_get ⟨7, 10, buf0⟩ j) :=
  write_preserves_outside ⟨7, 10, buf0⟩ 2 3 (fun j => j + 1) 99
    (by decide) (by decide) (fun _ => Nat.two_pow_pos 32)
    (fun j hj => Nat.lt_of_lt_of_le (show j + 1 < 4 by omega) (by decide))
    (by decide) (by decide) (by decide)

/-- C4: for every width 1..32, in-bounds offset, and value representable in
`bitsPerItem` bits: `set` followed by `get` at the same offset returns the
value; `set` leaves the buffer word-for-word identical to a `pack` of the
single-element list at that offset; and `unpack` of one item returns exactly
the value `get` reads. -/
theorem set_get_single_item (a : PackedArray) (offset v : Nat)
    (h1 : 1 ≤ a.bitsPerItem) (h2 : a.bitsPerItem ≤ 32)
    (hbuf : ∀ w, a.buffer w < 2 ^ 32) (hv : v < 2 ^ a.bitsPerItem) :
    PackedArray_get (PackedArray_set a offset v) offset = v ∧
    (∀ w', (PackedArray_set a offset v).buffer w' =
      (PackedArray_pack a offset (fun _ => v) 1).buffer w') ∧
    PackedArray_unpack a offset 1 = [PackedArray_get a offset] := by
  have hov : 1 + offset % 32 < 2 ^ 32 := by omega
  have hsetspec := set_packWordSpec a offset v h1 h2 hbuf hv
  have hsetb : ∀ w, (PackedArray_set a offset v).buffer w < 2 ^ 32 :=
    fun w => packWordSpec_lt (hsetspec w)
  have e0 : offset * a.bitsPerItem + 0 * a.bitsPerItem = offset * a.bitsPerItem := by
    ring
  refine ⟨?_, ?_, ?_⟩
  · have hget := get_eq_specItem (PackedArray_set a offset v) offset
      (by rw [set_bitsPerItem]; exact h1) (by rw [set_bitsPerItem]; exact h2) hsetb
    rw [set_bitsPerItem] at hget
    rw [hget]
    have hitem := specItem_of_packed h1 h2 hsetspec (fun j hj => hv) 0 (by omega)
    rw [e0] at hitem
    exact hitem
  · intro w'
    rw [pack_dispatch a offset 1 (fun _ => v) h1 h2]
    exact packWordSpec_unique (hsetspec w')
      (packSM_spec a.bitsPerItem offset 1 (fun _ => v) a.buffer h1 h2 hbuf
        (fun j hj => hv) (by omega) hov w')
  · rw [PackedArray_unpack, if_pos ⟨h1, h2⟩]
    rw [unpackSM_spec a.bitsPerItem a.buffer offset 1 h1 h2 hbuf (by omega) hov]
    rw [get_eq_specItem a offset h1 h2 hbuf]
    rw [show List.range 1 = [0] from rfl, List.map_cons, List.map_nil, e0]

theorem set_get_single_item_witness :
    PackedArray_get (PackedArray_set ⟨13, 6, buf0⟩ 4 4000) 4 = 4000 ∧
    (∀ w', (PackedArray_set ⟨13, 6, buf0⟩ 4 4000).buffer w' =
      (PackedArray_pack ⟨13, 6, buf0⟩ 4 (fun _ => 4000) 1).buffer w') ∧
    PackedArray_unpack ⟨13, 6, buf0⟩ 4 1 = [PackedArray_get ⟨13, 6, buf0⟩ 4] :=
  set_get_single_item ⟨13, 6, buf0⟩ 4 4000 (by decide) (by decide)
    (fun _ => Nat.two_pow_pos 32) (by decide)
